import Mathlib

set_option maxHeartbeats 1600000

set_option maxRecDepth 4096

/-!
Verification development for the `Bookmark` tree abstract data type of
`bmconverter.py` (class `Bookmark`, its traversal protocol, the mutation
operations and the csv escape helper).

The Python class is shallowly embedded as follows:

* A node's stored scalar fields (`__init__`, lines 486-510) become the
  structure `NodeData`; the child list becomes the `children` argument of the
  inductive type `Bookmark`, so a `Bookmark` value is one node together with
  the subtree hanging off it.  The bookkeeping fields `_seen` and `_iteritem`
  describe an iteration run in progress and are modelled by `IterState`.
* Node identity is modelled by the node's position in the tree.  Positions are
  "reversed paths" (`rpath`s): a `List Nat` whose head is the node's index in
  its parent's child list and whose tail is the parent's rpath; the tree root
  is `[]`.  The parent operation of the source is then `List.tail`, `child i`
  is `i :: p`, and `is_root` is `p = []`.
* Machine integers do not occur; Python's unbounded `int` becomes `Int`.
-/

/-- Stored fields of one `Bookmark` node as set up by `Bookmark.__init__`
(bmconverter.py lines 486-510).  `_level`, `_childnumber` and `_delete`
become `level`, `childnumber` and `deleteFlag`; the Python attribute `open`
becomes `open_` (`open` is a Lean keyword).  Text attributes that may hold
`None` are `Option String`; `page` is initialised to `0`, `open` to `True`.
The per-run fields `_seen` / `_iteritem` live in `IterState`, not here. -/
structure NodeData where
  action : Option String := none
  level : Int := 0
  title : Option String := some ""
  page : Int := 0
  destination : Option String := none
  named : Option String := none
  namedn : Option String := none
  file : Option String := none
  newwindow : Option Bool := none
  uri : Option String := none
  italic : Bool := false
  bold : Bool := false
  color : Option String := none
  open_ : Bool := true
  childnumber : Int := 0
  deleteFlag : Bool := false
  deriving Repr, DecidableEq

/-- A bookmark node together with its subtree: the stored fields and the
ordered child list `_children`. -/
inductive Bookmark where
  | mk (data : NodeData) (children : List Bookmark)
  deriving Repr

/-- The ordered child list of a node (`Bookmark.children`, line 566). -/
def Bookmark.children : Bookmark → List Bookmark
  | .mk _ cs => cs

/-- The stored scalar fields of a node. -/
def Bookmark.data : Bookmark → NodeData
  | .mk d _ => d

/-- `Bookmark.has_children` (line 584): whether the child list is nonempty. -/
def Bookmark.has_children (b : Bookmark) : Bool :=
  b.children.length > 0

/-- `Bookmark.number_of_children` (line 588). -/
def Bookmark.number_of_children (b : Bookmark) : Nat :=
  b.children.length

mutual
/-- `Bookmark.__len__` (lines 773-780): the number of bookmarks in the tree
below a node; the node itself does not count. -/
def Bookmark.len : Bookmark → Nat
  | .mk _ cs => cs.length + Bookmark.lenList cs
/-- Sum of `Bookmark.len` over a list of children (the loop in `__len__`). -/
def Bookmark.lenList : List Bookmark → Nat
  | [] => 0
  | c :: cs => Bookmark.len c + Bookmark.lenList cs
end

/-- Follow a forward path (root-to-node list of child indices) down from a
node; `none` when some index is out of range.  This is the interpretation of
a chain of `Bookmark.child` calls (line 570). -/
def nodeAt : Bookmark → List Nat → Option Bookmark
  | t, [] => some t
  | t, i :: p =>
    match t.children[i]? with
    | some c => nodeAt c p
    | none => none

/-- Follow an rpath (reversed path, head = index in parent) from the root. -/
def nodeAtR (t : Bookmark) (rp : List Nat) : Option Bookmark :=
  nodeAt t rp.reverse

/-- An rpath denotes a node of the tree. -/
def validR (t : Bookmark) (rp : List Nat) : Bool :=
  (nodeAtR t rp).isSome

/-- Number of children of the node at an rpath (0 if the rpath is invalid). -/
def childCountR (t : Bookmark) (rp : List Nat) : Nat :=
  match nodeAtR t rp with
  | some n => n.children.length
  | none => 0

/-!
## The iteration protocol

`Bookmark.next` (lines 704-737) drives a preorder traversal using two pieces
of state: each node's `_seen` dictionary (keyed by the identity of the run's
starting node, holding the number of the last run from that start in which
the node was produced) and the starting node's `_iteritem` cursor.  A single
run from a fixed start node `sp` only ever reads and writes the `_seen`
entries for the key `id(sp)`, so the state of one run is a map
"node rpath to seen counter" plus the cursor.
-/

/-- The `_seen` entries for one run key: node rpath to counter, absent
entries meaning the `setdefault 0` of `seen_in_run`. -/
def SeenMap := List (List Nat × Nat)

/-- Counter stored for a node, with the `setdefault(id(startnode), 0)`. -/
def seenN (seen : SeenMap) (p : List Nat) : Nat :=
  match List.lookup p seen with
  | some n => n
  | none => 0

/-- Store a counter for a node (entries are shadowed, `seenN` reads the most
recent one). -/
def setSeen (seen : SeenMap) (p : List Nat) (n : Nat) : SeenMap :=
  (p, n) :: seen

/-- `seen_in_run(node, startnode)` (lines 707-711): the node was already
produced in the run currently running from `sp`. -/
def seen_in_run (seen : SeenMap) (sp p : List Nat) : Bool :=
  seenN seen sp ≤ seenN seen p

/-- State of one iteration run from a fixed start node: the `_seen` counters
for this run's key and the start node's `_iteritem` cursor. -/
structure IterState where
  seen : SeenMap
  iteritem : Option (List Nat)

/-- Fresh state: no `_seen` entries, `_iteritem is None`. -/
def initIter : IterState := ⟨[], none⟩

/-- The `for child in self._iteritem.children()` scan of `Bookmark.next`
(lines 730-734): return the first child of the node at `rest` that is unseen
in the run from `sp`; `k` is the index of the first child of `cs`. -/
def scanChildren (seen : SeenMap) (sp rest : List Nat) : Nat → List Bookmark → Option (List Nat)
  | _, [] => none
  | k, _ :: cs =>
    if seen_in_run seen sp (k :: rest) then scanChildren seen sp rest (k + 1) cs
    else some (k :: rest)

/-- The `while not self._iteritem.is_root()` loop of `Bookmark.next`
(lines 727-734), walking the cursor up from `cur`.  At each step the cursor
moves to its parent (`rest`); if the parent's last child (`child(-1)`) is
unseen in the run, the first unseen child is returned, else the loop
continues.  `none` models falling out of the loop at the tree root
(`StopIteration`).  The guard for a childless parent cannot fire on states
reachable by the protocol (the cursor is itself a child of the parent). -/
def climb (t : Bookmark) (sp : List Nat) (seen : SeenMap) : List Nat → Option (List Nat)
  | [] => none
  | _ :: rest =>
    match nodeAtR t rest with
    | none => none
    | some par =>
      if par.children.length = 0 then climb t sp seen rest
      else
        if seen_in_run seen sp ((par.children.length - 1) :: rest) then
          climb t sp seen rest
        else
          match scanChildren seen sp rest 0 par.children with
          | some q => some q
          | none => climb t sp seen rest

/-- The `if self._iteritem.has_children(): self._iteritem = child(0)` step of
`Bookmark.next` (lines 722-725). -/
def descend (t : Bookmark) (cur : List Nat) : List Nat :=
  match nodeAtR t cur with
  | some node => if node.children.length > 0 then 0 :: cur else cur
  | none => cur

/-- Body of `Bookmark.next` after the run-start normalisation: descend to the
first child when there is one, run the climbing loop, and either produce the
found node (marking it seen with `make_seen`, which stores the start node's
current counter, and moving `_iteritem` there) or signal `StopIteration`
after `self.reset()` (lines 735-737). -/
def nextCore (t : Bookmark) (sp : List Nat) (seen : SeenMap) (cur : List Nat) :
    Option (List Nat) × IterState :=
  match climb t sp seen (descend t cur) with
  | some q => (some q, ⟨setSeen seen q (seenN seen sp), some q⟩)
  | none => (none, ⟨seen, none⟩)

/-- `Bookmark.next` (lines 704-737) for the run from start node `sp`: when
`_iteritem is None` a new run starts (the start node's counter is bumped and
the cursor is placed on the start node, lines 717-720), then `nextCore`. -/
def next (t : Bookmark) (sp : List Nat) (st : IterState) :
    Option (List Nat) × IterState :=
  match st.iteritem with
  | none => nextCore t sp (setSeen st.seen sp (seenN st.seen sp + 1)) sp
  | some p => nextCore t sp st.seen p

/-- Repeatedly call `next`, collecting the produced rpaths, stopping at
`StopIteration` or when the fuel runs out.  This is `for node in startnode`. -/
def runIter (t : Bookmark) (sp : List Nat) : Nat → IterState → List (List Nat) × IterState
  | 0, st => ([], st)
  | fuel + 1, st =>
    match next t sp st with
    | (some p, st') =>
      let r := runIter t sp fuel st'
      (p :: r.1, r.2)
    | (none, st') => ([], st')

/-- One complete iteration run started on a fresh state.  `len t + 2` calls
to `next` always suffice for a run over tree `t`: every successful call marks
a previously unmarked node. -/
def iterateAll (t : Bookmark) (sp : List Nat) : List (List Nat) × IterState :=
  runIter t sp (t.len + 2) initIter

mutual
/-- Rpaths of the proper descendants of the node at rpath `pref`, in preorder
(a node before its children, children in list order, a node's subtree before
its later siblings). -/
def preR (pref : List Nat) : Bookmark → List (List Nat)
  | .mk _ cs => preRs pref 0 cs
/-- Preorder rpaths for the children `cs` of the node at `pref`, the first of
`cs` having index `i`. -/
def preRs (pref : List Nat) (i : Nat) : List Bookmark → List (List Nat)
  | [] => []
  | c :: cs => (i :: pref) :: (preR (i :: pref) c ++ preRs pref (i + 1) cs)
end

/-!
## Preorder position order on paths

Preorder position of nodes corresponds to the lexicographic order on forward
paths in which a proper prefix (an ancestor) comes first.  `pltB` is that
order on forward paths; `rLt`/`rLe` transport it to rpaths.
-/

/-- Strict lexicographic order on forward paths; a proper prefix is smaller. -/
def pltB : List Nat → List Nat → Bool
  | [], [] => false
  | [], _ :: _ => true
  | _ :: _, [] => false
  | a :: p, b :: q => decide (a < b) || (decide (a = b) && pltB p q)

/-- Reflexive closure of `pltB`. -/
def pleB (x y : List Nat) : Bool := pltB x y || decide (x = y)

/-- Strict preorder-position order on rpaths. -/
def rLt (x y : List Nat) : Bool := pltB x.reverse y.reverse

/-- Non-strict preorder-position order on rpaths. -/
def rLe (x y : List Nat) : Bool := pleB x.reverse y.reverse

/-!
## Correctness of `Bookmark.next` for a run started at the root

`IsNextNode t p q` says `q` is the immediate preorder successor of `p` among the
valid rpaths of `t`; `IsMaxNode t p` says nothing comes after `p`.  `SeenInv`
captures the `_seen` state in the middle of a root run: a node tests as seen
exactly when it is the root or lies at or before the last produced node `p`.
-/

def IsNextNode (t : Bookmark) (p q : List Nat) : Prop :=
  validR t q = true ∧ rLt p q = true ∧
    ∀ r, validR t r = true → rLt p r = true → rLe q r = true

def IsMaxNode (t : Bookmark) (p : List Nat) : Prop :=
  ∀ r, validR t r = true → rLe r p = true

def SeenInv (t : Bookmark) (seen : SeenMap) (p : List Nat) : Prop :=
  ∀ q, seen_in_run seen [] q = true ↔
    (q = [] ∨ (validR t q = true ∧ rLe q p = true))

/-!
## Determinism of sequential runs

Two runs from the same start node behave identically because `next` reads
the `_seen` counters only through `seen_in_run`, and the "seen" predicate
evolves identically in both runs.  `bndSeen` is the invariant that no node's
counter exceeds the start node's counter (marking stores exactly the start
node's counter), which pins down the predicate right after a run restart.
-/

def bndSeen (sp : List Nat) (seen : SeenMap) : Prop :=
  ∀ q, seenN seen q ≤ seenN seen sp

def RelIter (sp : List Nat) (stA stB : IterState) : Prop :=
  stA.iteritem = stB.iteritem ∧ bndSeen sp stA.seen ∧ bndSeen sp stB.seen ∧
    (∀ p, stA.iteritem = some p →
      ∀ q, seen_in_run stA.seen sp q = seen_in_run stB.seen sp q)

/-!
## Structural mutation operations
-/

/-- Python list index resolution: a negative index counts from the end,
out-of-range indices are an `IndexError` (`none`). -/
def pyIdx (i : Int) (n : Nat) : Option Nat :=
  if 0 ≤ i ∧ i < (n : Int) then some i.toNat
  else if -(n : Int) ≤ i ∧ i < 0 then some (n - (-i).toNat)
  else none

/-- `Bookmark.newchild` (lines 592-600): append a freshly constructed node,
give it level `parent + 1` and store the index it was appended at. -/
def newchild (b : Bookmark) : Bookmark :=
  match b with
  | .mk d cs =>
    .mk d (cs ++ [.mk { level := d.level + 1, childnumber := (cs.length : Int) } []])

mutual
/-- The level recomputation of `set_child` (lines 607-610): each node of the
moved subtree gets `self.level() + (child.level() - oldlevel) + 1`, a uniform
shift by `d = self.level() + 1 - oldlevel`.  (The source computes this with
`for child in node`; with the stale parent link of `node` that loop can also
visit the later siblings of `node` under its old root parent and pre-apply
the very same shift to them — the per-node assignment is as modelled here.) -/
def levelShift (d : Int) : Bookmark → Bookmark
  | .mk nd cs => .mk { nd with level := nd.level + d } (levelShiftList d cs)
def levelShiftList (d : Int) : List Bookmark → List Bookmark
  | [] => []
  | c :: cs => levelShift d c :: levelShiftList d cs
end

/-- `Bookmark.set_child` (lines 602-612): replace child `i` (Python
indexing) by `node`, recompute the moved subtree's levels, and store the raw
argument `i` as the node's `_childnumber`.  (The source also re-points
`node._parent`; parenthood is positional in the value model.)  An
out-of-range `i` raises in the source; the claims never reach that case. -/
def set_child (b : Bookmark) (i : Int) (node : Bookmark) : Bookmark :=
  match b, pyIdx i b.children.length with
  | b, none => b
  | .mk d cs, some k =>
    let node2 := levelShift (d.level + 1 - node.data.level) node
    let node3 : Bookmark := .mk { node2.data with childnumber := i } node2.children
    .mk d (cs.set k node3)

/-- `Bookmark.__iadd__` (lines 755-762): for each child of `other`, create a
fresh child of `self` and replace it by the (re-levelled) child via
`set_child(-1, child)`. -/
def iadd (b other : Bookmark) : Bookmark :=
  other.children.foldl (fun acc c => set_child (newchild acc) (-1) c) b

/-- State of `other` after `self += other`: `__iadd__` never removes the
merged children from `other._children` (the loop at lines 759-761 only calls
`self.newchild()` and `self.set_child`); each child object stays in its slot
with its levels recomputed relative to `self` and `_childnumber` set to the
raw `-1` by `set_child`. -/
def iaddOther (b other : Bookmark) : Bookmark :=
  match other with
  | .mk d cs =>
    .mk d (cs.map (fun c =>
      let c2 := levelShift (b.data.level + 1 - c.data.level) c
      Bookmark.mk { c2.data with childnumber := -1 } c2.children))

/-- Replace the node at a forward path by applying `f` to it. -/
def updateAt : Bookmark → List Nat → (Bookmark → Bookmark) → Bookmark
  | b, [], f => f b
  | b, i :: p, f =>
    match b, b.children[i]? with
    | b, none => b
    | .mk d cs, some c => .mk d (cs.set i (updateAt c p f))

/-- `updateAt` along an rpath. -/
def updateAtR (t : Bookmark) (rp : List Nat) (f : Bookmark → Bookmark) : Bookmark :=
  updateAt t rp.reverse f

/-- `Bookmark._obliterate_child` (lines 614-628): resolve the index Python
style (an unresolvable index is the caught `IndexError`: warn, no change);
decrement the stored `_childnumber` of the child in that slot and of every
later sibling; remove the slot. -/
def obliterate_child (b : Bookmark) (childnumber : Int) : Bookmark :=
  match b, pyIdx childnumber b.children.length with
  | b, none => b
  | .mk d cs, some k =>
    .mk d (cs.take k ++ (cs.drop (k + 1)).map (fun c =>
      Bookmark.mk { c.data with childnumber := c.data.childnumber - 1 } c.children))

/-- `Bookmark._obliterate` (lines 676-682) of the node at rpath `p`: a no-op
on the root; otherwise `_obliterate_child` on the parent with the node's
stored `_childnumber`. -/
def obliterate (t : Bookmark) (p : List Nat) : Bookmark :=
  match p with
  | [] => t
  | _ :: rest =>
    match nodeAtR t p with
    | none => t
    | some n => updateAtR t rest (fun par => obliterate_child par n.data.childnumber)

/-- Apply `g` to the stored fields of a node, keeping its children. -/
def mapData (g : NodeData → NodeData) : Bookmark → Bookmark
  | .mk d cs => .mk (g d) cs

/-- The field update performed by `Bookmark.delete` (line 687). -/
def setFlagD (d : NodeData) : NodeData := { d with deleteFlag := true }

/-- `Bookmark.delete` (lines 684-687) of the node at rpath `p`: flag it. -/
def deleteAt (t : Bookmark) (p : List Nat) : Bookmark :=
  updateAtR t p (mapData setFlagD)

/-- `Bookmark.flush` (lines 689-698) called on the root: one complete
iteration run collects the flagged nodes, then each is obliterated.  The
source collects node references; the path-based model coincides with it when
a single node is flagged, which is the case the claims exercise. -/
def flush (t : Bookmark) : Bookmark :=
  let dellist := (iterateAll t []).1.filter (fun p =>
    match nodeAtR t p with
    | some n => n.data.deleteFlag
    | none => false)
  dellist.foldl (fun acc p => obliterate acc p) t

/-- The validated `page` write of `__setattr__` (lines 514-518) for an
integer right-hand side: a negative value is replaced by `0` with one
warning. -/
def setPage (v : Int) : Int × Nat := if v < 0 then (0, 1) else (v, 0)

mutual
/-- `Bookmark.shift_pagenumber` (lines 744-753) called on the root: the
iteration from the root produces every proper descendant exactly once
(`iterate_root_preorder`), and `node.page += offset` passes through the
validated `page` setter.  Returns the new tree and the warning count. -/
def shift_pagenumber : Bookmark → Int → Bookmark × Nat
  | .mk d cs, offset =>
    let r := shiftList cs offset
    (.mk d r.1, r.2)
def shiftList : List Bookmark → Int → List Bookmark × Nat
  | [], _ => ([], 0)
  | c :: cs, offset =>
    let rc := shiftNode c offset
    let rs := shiftList cs offset
    (rc.1 :: rs.1, rc.2 + rs.2)
def shiftNode : Bookmark → Int → Bookmark × Nat
  | .mk d cs, offset =>
    let pw := setPage (d.page + offset)
    let r := shiftList cs offset
    (.mk { d with page := pw.1 } r.1, pw.2 + r.2)
end

/-!
## Comparison operations
-/

/-- `Bookmark.has_same_attrs_as` (lines 782-800): conjunction of the 13
compared attributes, in source order; `_level`, `_childnumber` and the
deletion flag are not compared. -/
def has_same_attrs_as (a b : Bookmark) : Bool :=
  decide (a.data.action = b.data.action) &&
  decide (a.data.title = b.data.title) &&
  decide (a.data.page = b.data.page) &&
  decide (a.data.destination = b.data.destination) &&
  decide (a.data.named = b.data.named) &&
  decide (a.data.namedn = b.data.namedn) &&
  decide (a.data.file = b.data.file) &&
  decide (a.data.newwindow = b.data.newwindow) &&
  decide (a.data.uri = b.data.uri) &&
  decide (a.data.italic = b.data.italic) &&
  decide (a.data.bold = b.data.bold) &&
  decide (a.data.color = b.data.color) &&
  decide (a.data.open_ = b.data.open_)

/-- `Bookmark.__eq__` (lines 803-815): total size equality, then the two
roots' attributes, then pairwise attributes of the zipped immediate
children — the comparison does not descend further. -/
def bmEq (a b : Bookmark) : Bool :=
  if a.len = b.len then
    if has_same_attrs_as a b then
      (a.children.zip b.children).all (fun pr => has_same_attrs_as pr.1 pr.2)
    else false
  else false

mutual
/-- All nodes of the tree in preorder, the root first (used to state the
claimed full lockstep walk). -/
def preNodes : Bookmark → List Bookmark
  | .mk d cs => .mk d cs :: preNodesList cs
def preNodesList : List Bookmark → List Bookmark
  | [] => []
  | c :: cs => preNodes c ++ preNodesList cs
end

/-!
## The csv escape helper (`write_csv.escape`, lines 1746-1762)
-/

/-- One lowercase hex digit, as produced by Python's `hex`. -/
def pyHexDigit (n : Nat) : Char :=
  if n < 10 then Char.ofNat (48 + n) else Char.ofNat (87 + n)

/-- `str.upper` on one character (ASCII range suffices here). -/
def upperChar (c : Char) : Char :=
  if 'a' ≤ c ∧ c ≤ 'z' then Char.ofNat (c.toNat - 32) else c

/-- Membership in Python's `string.hexdigits`. -/
def isPyHexDigit (c : Char) : Bool :=
  ('0' ≤ c && c ≤ '9') || ('a' ≤ c && c ≤ 'f') || ('A' ≤ c && c ≤ 'F')

/-- The escape of one character: `"\\" + (hex(ord(c))[-2:]).upper()`, with
the repair for single-digit codes where the `x` of `0x` survives the slice
and fails the `hexdigits` test (lines 1755-1758). -/
def escapeCharN (n : Nat) : List Char :=
  let two := if n < 16 then ['x', pyHexDigit (n % 16)]
             else [pyHexDigit (n / 16 % 16), pyHexDigit (n % 16)]
  let two2 := two.map upperChar
  if isPyHexDigit (two2.headD 'x') then '\\' :: two2
  else ['\\', '0', two2.getLastD '0']

/-- The escape condition of the loop (line 1755): nonprintable characters
and the four characters backslash, semicolon, double quote, single quote. -/
def escCond (c : Char) : Bool :=
  c.toNat < 32 || c = '\\' || c = ';' || c = '"' || c = '\''

/-- The character loop of `write_csv.escape` (lines 1753-1761). -/
def escChars : List Char → List Char
  | [] => []
  | c :: rest => (if escCond c then escapeCharN c.toNat else [c]) ++ escChars rest

/-- `write_csv.escape` (lines 1746-1762). -/
def escape (s : String) : String := String.mk (escChars s.data)

/-- One uppercase hex digit. -/
def hexUpperDigit (n : Nat) : Char :=
  if n < 10 then Char.ofNat (48 + n) else Char.ofNat (55 + n)

/-- Two-digit uppercase hex escape, as the docs describe it. -/
def cleanEscapeCharN (n : Nat) : List Char :=
  ['\\', hexUpperDigit (n / 16 % 16), hexUpperDigit (n % 16)]

/-!
## The validated attribute assignment (`Bookmark.__setattr__`, lines 512-560)

Python values flowing into `__setattr__` are modelled by `PyVal`; a `vbytes`
stands for a Python 2 byte string that raises `UnicodeDecodeError` under
`unicode()`.  The destination/color grammars are the source's regular
expressions, embedded as a regex AST with a backtracking matcher
(`re.match` semantics: match any prefix, anchored at the start).
-/

inductive PyVal where
  | vint (n : Int)
  | vstr (s : String)
  | vbool (b : Bool)
  | vnone
  | vbytes (s : String)
  deriving Repr, DecidableEq

inductive AttrName where
  | page | italic | bold | open_ | newwindow
  | title | file | uri | destination | color | action
  deriving Repr, DecidableEq

inductive RE where
  | eps
  | lit (c : Char)
  | anychar
  | cls (ranges : List (Char × Char))
  | seq (r1 r2 : RE)
  | alt (r1 r2 : RE)
  | star (r : RE)
  deriving Repr

/-- Backtracking matcher in CPS, fuelled (the fuel bounds the recursion
depth; every recursive call consumes one unit). -/
def reMatch : Nat → RE → List Char → (List Char → Bool) → Bool
  | 0, _, _, _ => false
  | fuel + 1, r, s, k =>
    match r with
    | .eps => k s
    | .lit c =>
      match s with
      | [] => false
      | c2 :: rest => decide (c = c2) && k rest
    | .anychar =>
      match s with
      | [] => false
      | c2 :: rest => decide (c2 ≠ '\n') && k rest
    | .cls ranges =>
      match s with
      | [] => false
      | c2 :: rest => ranges.any (fun pr => pr.1 ≤ c2 && c2 ≤ pr.2) && k rest
    | .seq r1 r2 => reMatch fuel r1 s (fun s2 => reMatch fuel r2 s2 k)
    | .alt r1 r2 => reMatch fuel r1 s k || reMatch fuel r2 s k
    | .star r1 =>
      k s || reMatch fuel r1 s (fun s2 =>
        if s2.length < s.length then reMatch fuel (.star r1) s2 k else false)

/-- `re.match` semantics: some prefix of `s` matches `r` at the start. -/
def reMatches (r : RE) (s : String) : Bool :=
  reMatch (8 * s.length + 400) r s.data (fun _ => true)

def ropt (r : RE) : RE := .alt r .eps

def rplus (r : RE) : RE := .seq r (.star r)

def rstr (s : String) : RE :=
  s.data.foldr (fun c acc => RE.seq (.lit c) acc) .eps

/-- `[0-9]` -/
def rdigit : RE := .cls [('0', '9')]

/-- `[+-]?[0-9]?.?[0-9]+` (the unescaped `.` matches any character). -/
def rnumSigned : RE :=
  .seq (ropt (.cls [('+', '+'), ('-', '-')]))
    (.seq (ropt rdigit) (.seq (ropt .anychar) (rplus rdigit)))

/-- `null | [+-]?[0-9]?.?[0-9]+` (a destination operand). -/
def rnum : RE := .alt (rstr "null") rnumSigned

/-- `[0-9]?.?[0-9]+` (one color component). -/
def rnumColor : RE := .seq (ropt rdigit) (.seq (ropt .anychar) (rplus rdigit))

/-- `[ ]*` -/
def rsp : RE := .star (.lit ' ')

/-- `[ ]+` -/
def rsp1 : RE := rplus (.lit ' ')

/-- One destination alternative: optional `/`, a keyword, `n` operands each
preceded by `[ ]*`. -/
def rdest1 (kw : String) : Nat → RE
  | 0 => .seq (ropt (.lit '/')) (rstr kw)
  | n + 1 => .seq (rdest1 kw n) (.seq rsp rnum)

/-- The source's `_destpattern_str` (lines 465-483). -/
def destRE : RE :=
  .alt (rdest1 "XYZ" 3)
    (.alt (rdest1 "Fit" 0)
      (.alt (rdest1 "FitH" 1)
        (.alt (rdest1 "FitV" 1)
          (.alt (rdest1 "FitR" 4)
            (.alt (rdest1 "FitB" 0)
              (.alt (rdest1 "FitBH" 1) (rdest1 "FitBV" 1)))))))

/-- The source's `_colorpattern_str` (lines 460-464). -/
def colorRE : RE :=
  .seq rnumColor (.seq rsp1 (.seq rnumColor (.seq rsp1 rnumColor)))

/-- Python's `str.strip()`. -/
def isPySpace (c : Char) : Bool :=
  c = ' ' || c = '\t' || c = '\n' || c = '\r' || c = '\x0b' || c = '\x0c'

def pyStrip (s : String) : String :=
  String.mk (((s.data.dropWhile isPySpace).reverse.dropWhile isPySpace).reverse)

def warnPage : String := "page must be an integer greater than zero. Set to zero."

def warnBool : String := "must be boolean values. not set."

def warnConvert : String := "must be a unicode string. Trying to convert."

def warnNoConvert : String := "Could not convert to unicode. not set."

def warnAction : String := "is not a recognized action. action not set."

def warnDest1 : String := "is not a valid destination."

def warnDest2 : String := "destination pattern"

def warnDest3 : String := "Not set."

def warnColor1 : String := "is not a valid color declaration."

def warnColor2 : String := "color pattern"

def warnColor3 : String := "Not set."

/-- The final `self.__dict__[name] = value` (line 560), writing the typed
field selected by `name`.  For `page`, a Python `bool` is an `int`
(`isinstance(True, int)`), numerically 1 or 0. -/
def pyValInt (v : PyVal) : Int :=
  match v with
  | .vint n => n
  | .vbool b => if b then 1 else 0
  | _ => 0

def pyValBool (dflt : Bool) (v : PyVal) : Bool :=
  match v with
  | .vbool b => b
  | _ => dflt

def pyValOptBool (dflt : Option Bool) (v : PyVal) : Option Bool :=
  match v with
  | .vbool b => some b
  | .vnone => none
  | _ => dflt

def pyValOptStr (v : PyVal) : Option String :=
  match v with
  | .vstr s => some s
  | _ => none

def assignAttr (d : NodeData) (name : AttrName) (v : PyVal) : NodeData :=
  match name with
  | .page => { d with page := pyValInt v }
  | .italic => { d with italic := pyValBool d.italic v }
  | .bold => { d with bold := pyValBool d.bold v }
  | .open_ => { d with open_ := pyValBool d.open_ v }
  | .newwindow => { d with newwindow := pyValOptBool d.newwindow v }
  | .title => { d with title := pyValOptStr v }
  | .file => { d with file := pyValOptStr v }
  | .uri => { d with uri := pyValOptStr v }
  | .destination => { d with destination := pyValOptStr v }
  | .color => { d with color := pyValOptStr v }
  | .action => { d with action := pyValOptStr v }

/-- The refusal test of the boolean branch (lines 519-525): everything
non-bool is refused except `None` for `newwindow`. -/
def boolReject (name : AttrName) (v : PyVal) : Bool :=
  match v with
  | .vbool _ => false
  | .vnone => decide (name ≠ AttrName.newwindow)
  | _ => true

/-- The unicode coercion of the text branch (lines 526-537): the value after
coercion, the warnings, and whether a `UnicodeDecodeError` refused it. -/
def textConv (name : AttrName) (v : PyVal) : PyVal × List String × Bool :=
  let wc : List String :=
    if name = AttrName.title ∨ name = AttrName.file ∨ name = AttrName.uri then
      [warnConvert]
    else []
  match v with
  | .vnone => (v, [], false)
  | .vstr _ => (v, [], false)
  | .vbytes _ => (v, wc ++ [warnNoConvert], true)
  | .vint n => (PyVal.vstr (toString n), wc, false)
  | .vbool b => (PyVal.vstr (if b then "True" else "False"), wc, false)

/-- The `action` whitelist (lines 538-543), applied after coercion. -/
def actionOk (v : PyVal) : Bool :=
  match v with
  | .vnone => true
  | .vstr s => decide (s = "GoTo" ∨ s = "GoToR" ∨ s = "URI" ∨ s = "Launch")
  | _ => false

/-- The strip-and-grammar step shared by `destination` and `color`
(lines 544-559): the (possibly stripped) value and whether it was refused. -/
def grammarStep (re : RE) (v : PyVal) : PyVal × Bool :=
  match v with
  | .vstr s =>
    let s2 := pyStrip s
    if reMatches re s2 then (PyVal.vstr s2, false) else (v, true)
  | _ => (v, false)

/-- The page test of lines 514-518: a Python `bool` is an `int`. -/
def pageOk (v : PyVal) : Bool :=
  match v with
  | .vint n => decide (0 ≤ n)
  | .vbool _ => true
  | _ => false

/-- `Bookmark.__setattr__` (lines 512-560) for the validated attributes:
returns the updated fields and the list of `warn` messages, in order. -/
def setAttr (d : NodeData) (name : AttrName) (value : PyVal) :
    NodeData × List String := Id.run do
  let mut v := value
  let mut ws : List String := []
  -- page (lines 514-518): invalid values are replaced by 0 with a warning
  if name = AttrName.page then
    if !pageOk v then
      ws := ws ++ [warnPage]
      v := PyVal.vint 0
  -- italic / bold / open / newwindow (lines 519-525): non-bool refused
  if name = AttrName.italic ∨ name = AttrName.bold ∨ name = AttrName.open_ ∨
      name = AttrName.newwindow then
    if boolReject name v then
      ws := ws ++ [warnBool]
      return (d, ws)
  -- title / file / uri / destination / color / action (lines 526-537):
  -- coercion to unicode, refusal when it fails
  if name = AttrName.title ∨ name = AttrName.file ∨ name = AttrName.uri ∨
      name = AttrName.destination ∨ name = AttrName.color ∨
      name = AttrName.action then
    if v ≠ PyVal.vnone then
      let r := textConv name v
      ws := ws ++ r.2.1
      if r.2.2 then
        return (d, ws)
      v := r.1
  -- action (lines 538-543)
  if name = AttrName.action then
    if !actionOk v then
      ws := ws ++ [warnAction]
      return (d, ws)
  -- destination (lines 544-551): strip, then the grammar test
  if name = AttrName.destination ∧ v ≠ PyVal.vnone then
    let r := grammarStep destRE v
    if r.2 then
      ws := ws ++ [warnDest1, warnDest2, warnDest3]
      return (d, ws)
    v := r.1
  -- color (lines 552-559): strip, then the grammar test
  if name = AttrName.color ∧ v ≠ PyVal.vnone then
    let r := grammarStep colorRE v
    if r.2 then
      ws := ws ++ [warnColor1, warnColor2, warnColor3]
      return (d, ws)
    v := r.1
  return (assignAttr d name v, ws)

/-!
## Claim theorems
-/

/-- `len` of the subtree rooted at an rpath (0 for an invalid rpath). -/
def lenAtR (t : Bookmark) (p : List Nat) : Nat :=
  match nodeAtR t p with
  | some n => n.len
  | none => 0

/-- Example tree: a root with two childless children (`s` at rpath `[0]`,
its sibling at rpath `[1]`). -/
def twoLeaves : Bookmark := .mk {} [.mk {} [], .mk {} []]

/-- The claimed full lockstep preorder walk of C3: all node pairs of the two
preorder listings (roots included), compared with `has_same_attrs_as`. -/
def lockstepPre (a b : Bookmark) : Bool :=
  ((preNodes a).zip (preNodes b)).all fun pr => has_same_attrs_as pr.1 pr.2

/-- Two trees equal except for the title of the single grandchild. -/
def grandX : Bookmark := .mk {} [.mk {} [.mk { title := some "x" } []]]

def grandY : Bookmark := .mk {} [.mk {} [.mk { title := some "y" } []]]

/-- The net effect of `newchild(); set_child(-1, child)` on one merged-in
child: levels recomputed relative to the new parent's level, `_childnumber`
set to the raw `-1`. -/
def reparentL (lvl : Int) (c : Bookmark) : Bookmark :=
  Bookmark.mk { (levelShift (lvl + 1 - c.data.level) c).data with childnumber := -1 }
    (levelShift (lvl + 1 - c.data.level) c).children

/-- Example trees for C4: `bB` has one child, `cC` has one child. -/
def bB : Bookmark := .mk {} [.mk { childnumber := 0, level := 1 } []]

def cC : Bookmark := .mk {} [.mk { childnumber := 0, level := 1, title := some "c1" } []]

/-- Example for C7: a root `B` with one `newchild`-created child, and a tree
`C` with one top-level child. -/
def bC7 : Bookmark := newchild (.mk {} [])

def cC7 : Bookmark := .mk {} [.mk { level := 1, childnumber := 0 } []]

/-- The escape map as claim C9 states it: colon escaped, semicolon not. -/
def claimC9CharMap (c : Char) : List Char :=
  if c.toNat < 32 || c = '\\' || c = ':' || c = '"' || c = '\'' then
    cleanEscapeCharN c.toNat
  else [c]

def claimC9Map (cs : List Char) : List Char := (cs.map claimC9CharMap).flatten

/-!
Spec-side descriptions of the page shift, for C8 and C10.
-/

mutual
def mapPagesNode : Bookmark → (Int → Int) → Bookmark
  | .mk d cs, f => .mk { d with page := f d.page } (mapPagesList cs f)
def mapPagesList : List Bookmark → (Int → Int) → List Bookmark
  | [], _ => []
  | c :: cs, f => mapPagesNode c f :: mapPagesList cs f
end

/-- Apply `f` to the `page` of every proper descendant (the start node is
untouched, as `shift_pagenumber` documents). -/
def mapPagesDesc : Bookmark → (Int → Int) → Bookmark
  | .mk d cs, f => .mk d (mapPagesList cs f)

mutual
def countPagesNode : Bookmark → (Int → Bool) → Nat
  | .mk d cs, f => (if f d.page then 1 else 0) + countPagesList cs f
def countPagesList : List Bookmark → (Int → Bool) → Nat
  | [], _ => 0
  | c :: cs, f => countPagesNode c f + countPagesList cs f
end

/-- Count the proper descendants whose `page` satisfies `f`. -/
def countPagesDesc : Bookmark → (Int → Bool) → Nat
  | .mk _ cs, f => countPagesList cs f

mutual
/-- All proper descendants' pages satisfy `f`. -/
def allPagesDescList : List Bookmark → (Int → Bool) → Bool
  | [], _ => true
  | c :: cs, f => allPagesNode c f && allPagesDescList cs f
def allPagesNode : Bookmark → (Int → Bool) → Bool
  | .mk d cs, f => f d.page && allPagesDescList cs f
end

def allPagesDesc : Bookmark → (Int → Bool) → Bool
  | .mk _ cs, f => allPagesDescList cs f

/-- Prior state for the C6 scenario: a node whose destination was validly
set to `"XYZ 100 200 0"`. -/
def d1C6 : NodeData := (setAttr {} AttrName.destination (PyVal.vstr "XYZ 100 200 0")).1

/-!
## Lemmas about `updateAt`, for delete/flush (C5)
-/

def validF (b : Bookmark) (fp : List Nat) : Bool := (nodeAt b fp).isSome

def dataAtF (b : Bookmark) (fp : List Nat) : Option NodeData :=
  (nodeAt b fp).map Bookmark.data

mutual
/-- No node of the tree is flagged for deletion. -/
def noFlags : Bookmark → Bool
  | .mk d cs => !d.deleteFlag && noFlagsList cs
def noFlagsList : List Bookmark → Bool
  | [] => true
  | c :: cs => noFlags c && noFlagsList cs
end

mutual
/-- Every node's stored `_childnumber` equals its index in its parent's
child list (the invariant of C7, assumed by C5's use of `_obliterate`). -/
def wfNode : Bookmark → Bool
  | .mk _ cs => wfChildren 0 cs
def wfChildren : Nat → List Bookmark → Bool
  | _, [] => true
  | i, c :: cs =>
    decide (c.data.childnumber = (i : Int)) && wfNode c && wfChildren (i + 1) cs
end

/-- The decrement applied by `_obliterate_child` to the later siblings. -/
def cnDec (c : Bookmark) : Bookmark :=
  Bookmark.mk { c.data with childnumber := c.data.childnumber - 1 } c.children

/-- Removal of child slot `k`: what `_obliterate_child` does on a resolvable
index. -/
def dropSlot (k : Nat) (b : Bookmark) : Bookmark :=
  Bookmark.mk b.data (b.children.take k ++ (b.children.drop (k + 1)).map cnDec)

/-- Example tree for the C5 witness: a root with two children, the second
having one child of its own; all stored child indices are consistent. -/
def tW : Bookmark :=
  .mk {} [.mk { level := 1, childnumber := 0 } [],
          .mk { level := 1, childnumber := 1 }
            [.mk { level := 2, childnumber := 0 } []]]

theorem plt_irrefl : ∀ x, pltB x x = false := by
  intro x
  induction x with
  | nil => rfl
  | cons a p ih => simp [pltB, ih]

theorem plt_nil_right : ∀ x, pltB x [] = false := by
  intro x
  cases x <;> rfl

theorem plt_nil_left : ∀ x, x ≠ [] → pltB [] x = true := by
  intro x h
  cases x with
  | nil => exact absurd rfl h
  | cons a p => rfl

theorem plt_trans : ∀ x y z, pltB x y = true → pltB y z = true → pltB x z = true := by
  intro x
  induction x with
  | nil =>
    intro y z hxy hyz
    cases y with
    | nil => simp [pltB] at hxy
    | cons b q =>
      cases z with
      | nil => simp [pltB] at hyz
      | cons c r => rfl
  | cons a p ih =>
    intro y z hxy hyz
    cases y with
    | nil => simp [pltB] at hxy
    | cons b q =>
      cases z with
      | nil => simp [pltB] at hyz
      | cons c r =>
        simp only [pltB, Bool.or_eq_true, Bool.and_eq_true, decide_eq_true_eq] at *
        rcases hxy with hab | ⟨hab, hpq⟩ <;> rcases hyz with hbc | ⟨hbc, hqr⟩
        · exact Or.inl (lt_trans hab hbc)
        · exact Or.inl (hbc ▸ hab)
        · exact Or.inl (hab ▸ hbc)
        · exact Or.inr ⟨hab.trans hbc, ih q r hpq hqr⟩

theorem plt_asymm : ∀ x y, pltB x y = true → pltB y x = false := by
  intro x y hxy
  by_contra h
  rw [Bool.not_eq_false] at h
  have := plt_trans x y x hxy h
  rw [plt_irrefl] at this
  simp at this

theorem plt_trichotomy : ∀ x y, pltB x y = true ∨ x = y ∨ pltB y x = true := by
  intro x
  induction x with
  | nil =>
    intro y
    cases y with
    | nil => exact Or.inr (Or.inl rfl)
    | cons b q => exact Or.inl rfl
  | cons a p ih =>
    intro y
    cases y with
    | nil => exact Or.inr (Or.inr rfl)
    | cons b q =>
      rcases Nat.lt_trichotomy a b with hab | hab | hab
      · exact Or.inl (by simp [pltB, hab])
      · subst hab
        rcases ih q with h | h | h
        · exact Or.inl (by simp [pltB, h])
        · exact Or.inr (Or.inl (by rw [h]))
        · exact Or.inr (Or.inr (by simp [pltB, h]))
      · exact Or.inr (Or.inr (by simp [pltB, hab]))

theorem plt_append_cancel : ∀ w x y, pltB (w ++ x) (w ++ y) = pltB x y := by
  intro w
  induction w with
  | nil => intro x y; rfl
  | cons a w ih => intro x y; simp [pltB, ih]

theorem ple_append_cancel : ∀ w x y, pleB (w ++ x) (w ++ y) = pleB x y := by
  intro w x y
  simp [pleB, plt_append_cancel]

theorem ple_refl : ∀ x, pleB x x = true := by
  intro x; simp [pleB]

theorem ple_nil_right : ∀ x, pleB x [] = true ↔ x = [] := by
  intro x
  simp [pleB, plt_nil_right]

theorem ple_trans : ∀ x y z, pleB x y = true → pleB y z = true → pleB x z = true := by
  intro x y z hxy hyz
  simp only [pleB, Bool.or_eq_true, decide_eq_true_eq] at *
  rcases hxy with hxy | rfl
  · rcases hyz with hyz | rfl
    · exact Or.inl (plt_trans _ _ _ hxy hyz)
    · exact Or.inl hxy
  · exact hyz

theorem ple_antisymm : ∀ x y, pleB x y = true → pleB y x = true → x = y := by
  intro x y hxy hyz
  simp only [pleB, Bool.or_eq_true, decide_eq_true_eq] at *
  rcases hxy with hxy | rfl
  · rcases hyz with hyz | rfl
    · have := plt_asymm x y hxy
      rw [hyz] at this
      simp at this
    · rfl
  · rfl

theorem plt_ple_trans : ∀ x y z, pltB x y = true → pleB y z = true → pltB x z = true := by
  intro x y z hxy hyz
  simp only [pleB, Bool.or_eq_true, decide_eq_true_eq] at hyz
  rcases hyz with hyz | rfl
  · exact plt_trans _ _ _ hxy hyz
  · exact hxy

theorem ple_of_plt : ∀ x y, pltB x y = true → pleB x y = true := by
  intro x y h; simp [pleB, h]

theorem plt_of_ple_of_ne : ∀ x y, pleB x y = true → x ≠ y → pltB x y = true := by
  intro x y h hne
  simp only [pleB, Bool.or_eq_true, decide_eq_true_eq] at h
  rcases h with h | rfl
  · exact h
  · exact absurd rfl hne

theorem plt_extension : ∀ x s, s ≠ [] → pltB x (x ++ s) = true := by
  intro x s hs
  have := plt_append_cancel x [] s
  rw [List.append_nil] at this
  rw [this]
  exact plt_nil_left s hs

theorem ple_extension : ∀ x s, pleB x (x ++ s) = true := by
  intro x s
  cases s with
  | nil => rw [List.append_nil]; exact ple_refl x
  | cons a s => exact ple_of_plt _ _ (plt_extension x (a :: s) (by simp))

theorem plt_append_left_self : ∀ x s, pltB (x ++ s) x = false := by
  intro x s
  have := plt_append_cancel x s []
  rw [List.append_nil] at this
  rw [this]
  exact plt_nil_right s

theorem ple_concat_self : ∀ x k, pleB (x ++ [k]) x = false := by
  intro x k
  simp only [pleB, plt_append_left_self, Bool.false_or, decide_eq_false_iff_not]
  intro h
  have := congrArg List.length h
  simp at this

theorem ple_single : ∀ x y (z : List Nat), x ≤ y → pleB [x] (y :: z) = true := by
  intro x y z hxy
  rcases Nat.lt_or_ge x y with h | h
  · exact ple_of_plt _ _ (by simp [pltB, h])
  · have hxe : x = y := le_antisymm hxy h
    subst hxe
    cases z with
    | nil => simp [pleB]
    | cons c r => exact ple_of_plt _ _ (by simp [pltB, plt_nil_left])

/-!
## Path and tree lemmas
-/

theorem nodeAt_append : ∀ (x y : List Nat) (t : Bookmark),
    nodeAt t (x ++ y) = (nodeAt t x).bind (fun n => nodeAt n y) := by
  intro x
  induction x with
  | nil => intro y t; rfl
  | cons i x ih =>
    intro y t
    simp only [List.cons_append, nodeAt]
    cases t.children[i]? with
    | none => rfl
    | some c => exact ih y c

theorem nodeAt_single (n : Bookmark) (k : Nat) : nodeAt n [k] = n.children[k]? := by
  simp only [nodeAt]
  cases n.children[k]? with
  | none => rfl
  | some c => rfl

theorem nodeAtR_cons (t : Bookmark) (k : Nat) (rest : List Nat) :
    nodeAtR t (k :: rest) = (nodeAtR t rest).bind (fun n => n.children[k]?) := by
  simp only [nodeAtR, List.reverse_cons, nodeAt_append]
  congr 1
  funext n
  exact nodeAt_single n k

theorem validR_append (t : Bookmark) (v q : List Nat) :
    validR t (v ++ q) = true → validR t q = true := by
  simp only [validR, nodeAtR, List.reverse_append, nodeAt_append]
  cases h : nodeAt t q.reverse with
  | none => simp
  | some n => simp

theorem validR_cons_iff (t : Bookmark) (k : Nat) (rest : List Nat) :
    validR t (k :: rest) = true ↔ validR t rest = true ∧ k < childCountR t rest := by
  rw [validR, nodeAtR_cons]
  cases h : nodeAtR t rest with
  | none => simp [validR, h, childCountR]
  | some n =>
    simp only [validR, h, childCountR, Option.bind_some, Option.isSome_some, true_and]
    rw [Option.isSome_iff_exists]
    constructor
    · rintro ⟨c, hc⟩
      exact (List.getElem?_eq_some.mp hc).1
    · intro hk
      exact ⟨n.children[k], List.getElem?_eq_some.mpr ⟨hk, rfl⟩⟩

theorem childCountR_eq (t : Bookmark) (rest : List Nat) (par : Bookmark)
    (h : nodeAtR t rest = some par) : childCountR t rest = par.children.length := by
  simp [childCountR, h]

theorem seenN_setSeen (seen : SeenMap) (p x : List Nat) (n : Nat) :
    seenN (setSeen seen p n) x = if x = p then n else seenN seen x := by
  by_cases h : x = p
  · subst h
    simp [seenN, setSeen, List.lookup]
  · have hb : (x == p) = false := by simpa [beq_iff_eq] using h
    simp only [seenN, setSeen, List.lookup, hb, if_neg h]

/-!
## Comparison lemmas on rpaths
-/

theorem rlt_irrefl (x : List Nat) : rLt x x = false := plt_irrefl _

theorem rle_refl (x : List Nat) : rLe x x = true := ple_refl _

theorem rle_trans {x y z : List Nat} (h1 : rLe x y = true) (h2 : rLe y z = true) :
    rLe x z = true := ple_trans _ _ _ h1 h2

theorem rlt_rle_trans {x y z : List Nat} (h1 : rLt x y = true) (h2 : rLe y z = true) :
    rLt x z = true := plt_ple_trans _ _ _ h1 h2

theorem rle_of_rlt {x y : List Nat} (h : rLt x y = true) : rLe x y = true :=
  ple_of_plt _ _ h

theorem rle_antisymm {x y : List Nat} (h1 : rLe x y = true) (h2 : rLe y x = true) :
    x = y := by
  have := ple_antisymm x.reverse y.reverse h1 h2
  have h3 := congrArg List.reverse this
  simpa using h3

theorem rlt_of_rle_of_ne {x y : List Nat} (h : rLe x y = true) (hne : x ≠ y) :
    rLt x y = true := by
  refine plt_of_ple_of_ne _ _ h ?_
  intro hrev
  apply hne
  have h3 := congrArg List.reverse hrev
  simpa using h3

theorem rlt_trichotomy (x y : List Nat) :
    rLt x y = true ∨ x = y ∨ rLt y x = true := by
  rcases plt_trichotomy x.reverse y.reverse with h | h | h
  · exact Or.inl h
  · refine Or.inr (Or.inl ?_)
    have h3 := congrArg List.reverse h
    simpa using h3
  · exact Or.inr (Or.inr h)

theorem rlt_asymm {x y : List Nat} (h : rLt x y = true) : rLt y x = false :=
  plt_asymm _ _ h

theorem rle_nil_right (x : List Nat) : rLe x [] = true ↔ x = [] := by
  have := ple_nil_right x.reverse
  simp only [rLe, List.reverse_nil]
  rw [this]
  constructor
  · intro h
    have h3 := congrArg List.reverse h
    simpa using h3
  · intro h; simp [h]

theorem rlt_nil_left (x : List Nat) (h : x ≠ []) : rLt [] x = true := by
  apply plt_nil_left
  simpa using h

/-- An ancestor (an rpath suffix) is at or before the node in preorder. -/
theorem rle_ancestor (q u : List Nat) : rLe q (u ++ q) = true := by
  simp only [rLe, List.reverse_append]
  exact ple_extension q.reverse u.reverse

/-- A proper descendant is strictly after the node in preorder. -/
theorem rlt_descendant (q v : List Nat) (hv : v ≠ []) : rLt q (v ++ q) = true := by
  simp only [rLt, List.reverse_append]
  apply plt_extension
  simpa using hv

/-- A child is never at or before its parent. -/
theorem rle_child_base_false (k : Nat) (p : List Nat) : rLe (k :: p) p = false := by
  simp only [rLe, List.reverse_cons]
  exact ple_concat_self p.reverse k

/-- Master comparison: the position of the `k`-th child of a node `rest`
relative to a node `p` that lies in (or at the bottom of) the subtree of the
`i`-th child of `rest`. -/
theorem rle_child_master (rest u : List Nat) (k i : Nat) :
    rLe (k :: rest) (u ++ i :: rest) = decide (k ≤ i) := by
  simp only [rLe, List.reverse_cons, List.reverse_append]
  rw [List.append_assoc]
  have hcancel := ple_append_cancel rest.reverse [k] ([i] ++ u.reverse)
  rw [hcancel]
  simp only [List.singleton_append]
  rcases le_or_lt k i with h | h
  · rw [ple_single k i u.reverse h]
    simp [h]
  · have hne : ¬ k ≤ i := by omega
    simp only [decide_eq_false hne]
    simp only [pleB, pltB, Bool.or_eq_false_iff]
    refine ⟨?_, ?_⟩
    · simp only [Bool.or_eq_false_iff, Bool.and_eq_false_iff, decide_eq_false_iff_not]
      exact ⟨by omega, Or.inl (by omega)⟩
    · simp only [decide_eq_false_iff_not]
      intro heq
      injection heq with h3 h4
      omega

/-- The successor sibling is strictly after everything in the previous
sibling's subtree. -/
theorem rlt_p_succ (rest u : List Nat) (i : Nat) :
    rLt (u ++ i :: rest) ((i + 1) :: rest) = true := by
  simp only [rLt, List.reverse_cons, List.reverse_append]
  rw [List.append_assoc]
  have hcancel := plt_append_cancel rest.reverse ([i] ++ u.reverse) [i + 1]
  rw [hcancel]
  simp [pltB]

/-- Children with smaller index head strictly smaller subtrees. -/
theorem rlt_diff_child (s1 s2 pref : List Nat) (i j : Nat) (hij : i < j) :
    rLt (s1 ++ i :: pref) (s2 ++ j :: pref) = true := by
  simp only [rLt, List.reverse_append, List.reverse_cons]
  rw [List.append_assoc, List.append_assoc,
    plt_append_cancel pref.reverse ([i] ++ s1.reverse) ([j] ++ s2.reverse)]
  simp [pltB, hij]

/-- Characterisation of the strict order: either a proper prefix (forward
path of an ancestor), or a divergence at some position. -/
theorem plt_decomp : ∀ x y, pltB x y = true →
    (∃ s, y = x ++ s ∧ s ≠ []) ∨
    (∃ w a b s u, x = w ++ a :: s ∧ y = w ++ b :: u ∧ a < b) := by
  intro x
  induction x with
  | nil =>
    intro y h
    cases y with
    | nil => simp [pltB] at h
    | cons b q => exact Or.inl ⟨b :: q, rfl, by simp⟩
  | cons a p ih =>
    intro y h
    cases y with
    | nil => simp [pltB] at h
    | cons b q =>
      simp only [pltB, Bool.or_eq_true, Bool.and_eq_true, decide_eq_true_eq] at h
      rcases h with hab | ⟨hab, hpq⟩
      · exact Or.inr ⟨[], a, b, p, q, rfl, rfl, hab⟩
      · subst hab
        rcases ih q hpq with ⟨s, hq, hs⟩ | ⟨w, c, d, s, u, hx, hy, hcd⟩
        · exact Or.inl ⟨s, by rw [hq]; rfl, hs⟩
        · exact Or.inr ⟨a :: w, c, d, s, u, by rw [hx]; rfl, by rw [hy]; rfl, hcd⟩

/-- Two decompositions of one list into prefix plus remainder are comparable. -/
theorem pre_of_same : ∀ (w v z sw sv : List Nat), z = w ++ sw → z = v ++ sv →
    (∃ d, v = w ++ d) ∨ (∃ d, w = v ++ d) := by
  intro w
  induction w with
  | nil => intro v z sw sv h1 h2; exact Or.inl ⟨v, rfl⟩
  | cons a w ih =>
    intro v z sw sv h1 h2
    cases v with
    | nil => exact Or.inr ⟨a :: w, rfl⟩
    | cons c v' =>
      cases z with
      | nil => simp at h1
      | cons e z' =>
        simp only [List.cons_append, List.cons.injEq] at h1 h2
        obtain ⟨he1, hz1⟩ := h1
        obtain ⟨he2, hz2⟩ := h2
        subst he1
        subst he2
        rcases ih v' z' sw sv hz1 hz2 with ⟨d, hd⟩ | ⟨d, hd⟩
        · exact Or.inl ⟨d, by rw [hd]; simp⟩
        · exact Or.inr ⟨d, by rw [hd]; simp⟩

/-- If a node has children, anything strictly after it in preorder is at or
after its child `0`. -/
theorem least_child (p r : List Nat) (hpr : rLt p r = true) :
    rLe (0 :: p) r = true := by
  rcases plt_decomp _ _ hpr with ⟨s, hs, hsne⟩ | ⟨w, a, b, s, u, hx, hy, hab⟩
  · cases s with
    | nil => exact absurd rfl hsne
    | cons b s2 =>
      simp only [rLe, List.reverse_cons, hs]
      rw [ple_append_cancel p.reverse [0] (b :: s2)]
      exact ple_single 0 b s2 (Nat.zero_le b)
  · simp only [rLe, List.reverse_cons, hx, hy]
    have hshape : (w ++ a :: s) ++ [0] = w ++ (a :: (s ++ [0])) := by simp
    rw [hshape, ple_append_cancel]
    exact ple_of_plt _ _ (by simp [pltB, hab])

/-- When the whole subtree of child `i` of node `rest` is at or before `p`,
anything valid strictly after `p` is at or after the sibling `i + 1`. -/
theorem least_sibling (t : Bookmark) (rest u p r : List Nat) (i : Nat)
    (hp : p = u ++ i :: rest)
    (hr : validR t r = true) (hpr : rLt p r = true)
    (hsub : ∀ q, validR t q = true → (∃ v, q = v ++ i :: rest) → rLe q p = true) :
    rLe ((i + 1) :: rest) r = true := by
  have hprev : p.reverse = rest.reverse ++ i :: u.reverse := by
    rw [hp]; simp
  rcases plt_decomp _ _ hpr with ⟨s, hs, hsne⟩ | ⟨w, a, b, s, u2, hx, hy, hab⟩
  · exfalso
    have hrform : r = s.reverse ++ u ++ i :: rest := by
      have := congrArg List.reverse hs
      simp only [List.reverse_append, List.reverse_reverse] at this
      rw [this, hp]
      simp [List.append_assoc]
    have hle := hsub r hr ⟨s.reverse ++ u, hrform⟩
    have := rlt_rle_trans hpr hle
    rw [rlt_irrefl] at this
    simp at this
  · rcases pre_of_same w rest.reverse p.reverse (a :: s) (i :: u.reverse) hx hprev
      with ⟨d, hd⟩ | ⟨d, hd⟩
    · cases d with
      | nil =>
        rw [List.append_nil] at hd
        subst hd
        have hinj : a :: s = i :: u.reverse := by
          rw [hx] at hprev
          exact List.append_cancel_left hprev
        injection hinj with hai hsu
        subst hai
        simp only [rLe, List.reverse_cons, hy]
        rw [ple_append_cancel]
        exact ple_single (a + 1) b u2 (by omega)
      | cons e d2 =>
        have hsplit : a = e ∧ s = d2 ++ i :: u.reverse := by
          rw [hd] at hprev
          rw [hx] at hprev
          rw [List.append_assoc] at hprev
          have h2 := List.append_cancel_left hprev
          simp only [List.cons_append, List.cons.injEq] at h2
          exact h2
        simp only [rLe, List.reverse_cons, hy, hd]
        have hshape : (w ++ e :: d2) ++ [i + 1] = w ++ (e :: (d2 ++ [i + 1])) := by
          simp
        rw [hshape, ple_append_cancel]
        refine ple_of_plt _ _ ?_
        have h5 := hsplit.1
        simp only [pltB, Bool.or_eq_true, decide_eq_true_eq]
        left
        omega
    · cases d with
      | nil =>
        rw [List.append_nil] at hd
        subst hd
        have hinj : a :: s = i :: u.reverse := by
          rw [hx] at hprev
          exact List.append_cancel_left hprev
        injection hinj with hai hsu
        subst hai
        simp only [rLe, List.reverse_cons, hy]
        rw [ple_append_cancel]
        exact ple_single (a + 1) b u2 (by omega)
      | cons e d2 =>
        exfalso
        have hsplit : e = i ∧ d2 ++ a :: s = u.reverse := by
          rw [hd] at hx
          rw [hx] at hprev
          rw [List.append_assoc] at hprev
          have h2 := List.append_cancel_left hprev
          simp only [List.cons_append, List.cons.injEq] at h2
          exact h2
        have hrform : r.reverse = rest.reverse ++ [i] ++ (d2 ++ b :: u2) := by
          rw [hy, hd, hsplit.1]
          simp [List.append_assoc]
        have hrform2 : r = (d2 ++ b :: u2).reverse ++ i :: rest := by
          have := congrArg List.reverse hrform
          simp only [List.reverse_append, List.reverse_reverse,
            List.reverse_cons] at this ⊢
          rw [this]
          simp [List.append_assoc]
        have hle := hsub r hr ⟨(d2 ++ b :: u2).reverse, hrform2⟩
        have := rlt_rle_trans hpr hle
        rw [rlt_irrefl] at this
        simp at this

theorem scan_spec (seen : SeenMap) (sp rest : List Nat) (i : Nat) :
    ∀ (cs : List Bookmark) (k0 : Nat),
    (∀ m, k0 ≤ m → m < k0 + cs.length →
      (seen_in_run seen sp (m :: rest) = true ↔ m ≤ i)) →
    k0 ≤ i + 1 →
    scanChildren seen sp rest k0 cs =
      if i + 1 < k0 + cs.length then some ((i + 1) :: rest) else none := by
  intro cs
  induction cs with
  | nil =>
    intro k0 h hk0
    rw [if_neg (by simp; omega)]
    rfl
  | cons c cs ih =>
    intro k0 h hk0
    simp only [scanChildren]
    by_cases hk : seen_in_run seen sp (k0 :: rest) = true
    · have hk0i : k0 ≤ i :=
        (h k0 (le_refl _) (by simp only [List.length_cons]; omega)).mp hk
      rw [if_pos hk]
      rw [ih (k0 + 1) (fun m hm1 hm2 =>
        h m (by omega) (by simp only [List.length_cons]; omega)) (by omega)]
      simp only [List.length_cons]
      have harith : k0 + 1 + cs.length = k0 + (cs.length + 1) := by omega
      rw [harith]
    · have hk0i : ¬ k0 ≤ i := fun hle =>
        hk ((h k0 (le_refl _) (by simp only [List.length_cons]; omega)).mpr hle)
      have hk0eq : k0 = i + 1 := by omega
      rw [if_neg hk]
      rw [if_pos (by simp only [List.length_cons]; omega), hk0eq]

theorem scan_first_unseen (seen : SeenMap) (sp rest : List Nat)
    (c : Bookmark) (cs : List Bookmark)
    (h0 : seen_in_run seen sp (0 :: rest) = false) :
    scanChildren seen sp rest 0 (c :: cs) = some (0 :: rest) := by
  simp only [scanChildren, h0]
  rfl

theorem climb_spec (t : Bookmark) (seen : SeenMap) (p : List Nat)
    (hp : validR t p = true) (hseen : SeenInv t seen p) :
    ∀ (y u : List Nat), p = u ++ y →
    (∀ q, validR t q = true → (∃ v, q = v ++ y) → rLe q p = true) →
    (∀ q, climb t [] seen y = some q → IsNextNode t p q) ∧
      (climb t [] seen y = none → IsMaxNode t p) := by
  intro y
  induction y with
  | nil =>
    intro u hpy hsub
    constructor
    · intro q hq
      simp [climb] at hq
    · intro _ r hr
      exact hsub r hr ⟨r, by simp⟩
  | cons i rest ih =>
    intro u hpy hsub
    have hirest : validR t (i :: rest) = true := by
      have : validR t (u ++ i :: rest) = true := by rw [← hpy]; exact hp
      exact validR_append t u _ this
    have hrest : validR t rest = true := (validR_cons_iff t i rest).mp hirest |>.1
    have hicount : i < childCountR t rest := (validR_cons_iff t i rest).mp hirest |>.2
    obtain ⟨par, hpar⟩ := Option.isSome_iff_exists.mp (by rw [validR] at hrest; exact hrest)
    have hcount : childCountR t rest = par.children.length := childCountR_eq t rest par hpar
    rw [hcount] at hicount
    have hchild : ∀ k, k < par.children.length →
        (seen_in_run seen [] (k :: rest) = true ↔ k ≤ i) := by
      intro k hk
      rw [hseen (k :: rest)]
      have hkvalid : validR t (k :: rest) = true :=
        (validR_cons_iff t k rest).mpr ⟨hrest, by rw [hcount]; exact hk⟩
      have hkle : rLe (k :: rest) p = decide (k ≤ i) := by
        rw [hpy]; exact rle_child_master rest u k i
      constructor
      · rintro (habs | ⟨-, hle⟩)
        · exact absurd habs (by simp)
        · rw [hkle] at hle
          exact of_decide_eq_true hle
      · intro hki
        exact Or.inr ⟨hkvalid, by rw [hkle]; exact decide_eq_true hki⟩
    simp only [climb, hpar]
    rw [if_neg (by omega)]
    by_cases hlast : i = par.children.length - 1
    · -- the last child is seen: the loop moves up to the parent
      have hguard : seen_in_run seen [] ((par.children.length - 1) :: rest) = true :=
        (hchild _ (by omega)).mpr (by omega)
      rw [if_pos hguard]
      refine ih (u ++ [i]) (by rw [hpy]; simp) ?_
      intro q hq ⟨v, hv⟩
      rcases List.eq_nil_or_concat v with rfl | ⟨v2, k, rfl⟩
      · rw [hv, hpy]
        have := rle_ancestor rest (u ++ [i])
        simpa [List.append_assoc] using this
      · have hqform : q = v2 ++ k :: rest := by rw [hv]; simp
        have hkrest : validR t (k :: rest) = true := by
          rw [hqform] at hq
          exact validR_append t v2 _ hq
        have hk : k < par.children.length := by
          have := (validR_cons_iff t k rest).mp hkrest |>.2
          rw [hcount] at this
          exact this
      -- k is at most i, the last child index
        rcases Nat.lt_or_ge k i with hki | hki
        · rw [hqform, hpy]
          exact rle_of_rlt (rlt_diff_child v2 u rest k i hki)
        · have hkeq : k = i := by omega
          subst hkeq
          exact hsub q hq ⟨v2, hqform⟩
    · -- an unseen child exists: return the first unseen one
      have hguard : ¬ seen_in_run seen [] ((par.children.length - 1) :: rest) = true := by
        intro habs
        have := (hchild _ (by omega)).mp habs
        omega
      rw [if_neg hguard]
      rw [scan_spec seen [] rest i par.children 0
        (fun m hm1 hm2 => hchild m (by omega)) (by omega)]
      rw [if_pos (by omega)]
      constructor
      · intro q hq
        injection hq with hq
        subst hq
        refine ⟨?_, ?_, ?_⟩
        · exact (validR_cons_iff t (i + 1) rest).mpr ⟨hrest, by rw [hcount]; omega⟩
        · rw [hpy]; exact rlt_p_succ rest u i
        · intro r hr hpr
          exact least_sibling t rest u p r i hpy hr hpr
            (fun q hq hex => hsub q hq hex)
      · intro habs
        simp at habs

theorem nextCore_spec (t : Bookmark) (seen : SeenMap) (p : List Nat)
    (hp : validR t p = true) (hseen : SeenInv t seen p) :
    (∃ q, nextCore t [] seen p = (some q, ⟨setSeen seen q (seenN seen []), some q⟩) ∧
      IsNextNode t p q) ∨
    (nextCore t [] seen p = (none, ⟨seen, none⟩) ∧ IsMaxNode t p) := by
  obtain ⟨n, hn⟩ := Option.isSome_iff_exists.mp (by rw [validR] at hp; exact hp)
  by_cases hch : n.children.length = 0
  · -- the cursor node is childless: the loop climbs from the node itself
    have hdes : descend t p = p := by
      simp [descend, hn, hch]
    have hsub : ∀ q, validR t q = true → (∃ v, q = v ++ p) → rLe q p = true := by
      intro q hq ⟨v, hv⟩
      rcases List.eq_nil_or_concat v with rfl | ⟨v2, k, rfl⟩
      · rw [hv]; exact rle_refl p
      · exfalso
        have hqform : q = v2 ++ k :: p := by rw [hv]; simp
        have hkp : validR t (k :: p) = true := by
          rw [hqform] at hq
          exact validR_append t v2 _ hq
        have := (validR_cons_iff t k p).mp hkp |>.2
        rw [childCountR_eq t p n hn, hch] at this
        omega
    have hclimb := climb_spec t seen p hp hseen p [] (by simp) hsub
    cases hcl : climb t [] seen p with
    | none =>
      right
      constructor
      · simp only [nextCore, hdes, hcl]
      · exact hclimb.2 hcl
    | some q =>
      left
      exact ⟨q, by simp only [nextCore, hdes, hcl], hclimb.1 q hcl⟩
  · -- the cursor node has children: descend to child 0, which is unseen
    have hdes : descend t p = 0 :: p := by
      simp only [descend, hn]
      rw [if_pos (by omega)]
    have hkseen : ∀ k, seen_in_run seen [] (k :: p) = false := by
      intro k
      rw [← Bool.not_eq_true]
      rw [hseen (k :: p)]
      rintro (habs | ⟨-, hle⟩)
      · exact absurd habs (by simp)
      · rw [rle_child_base_false] at hle
        simp at hle
    have hclimb1 : climb t [] seen (0 :: p) = some (0 :: p) := by
      simp only [climb, hn]
      rw [if_neg hch]
      rw [if_neg (by rw [hkseen]; simp)]
      cases hcs : n.children with
      | nil => rw [hcs] at hch; simp at hch
      | cons c cs =>
        rw [scan_first_unseen seen [] p c cs (hkseen 0)]
    left
    refine ⟨0 :: p, by simp only [nextCore, hdes, hclimb1], ?_, ?_, ?_⟩
    · exact (validR_cons_iff t 0 p).mpr ⟨hp, by rw [childCountR_eq t p n hn]; omega⟩
    · exact rlt_descendant p [0] (by simp)
    · intro r hr hpr
      exact least_child p r hpr

theorem seeninv_mark (t : Bookmark) (seen : SeenMap) (p q : List Nat)
    (hseen : SeenInv t seen p) (hnext : IsNextNode t p q) :
    SeenInv t (setSeen seen q (seenN seen [])) q := by
  obtain ⟨hqvalid, hpq, hmin⟩ := hnext
  have hqne : q ≠ [] := by
    rintro rfl
    rw [rLt, List.reverse_nil, plt_nil_right] at hpq
    simp at hpq
  intro r
  have hseenr := hseen r
  simp only [seen_in_run, decide_eq_true_eq] at hseenr ⊢
  simp only [seenN_setSeen]
  rw [if_neg (fun h => hqne h.symm)]
  by_cases hrq : r = q
  · subst hrq
    rw [if_pos rfl]
    simp only [le_refl, true_iff]
    exact Or.inr ⟨hqvalid, rle_refl r⟩
  · rw [if_neg hrq]
    rw [hseenr]
    constructor
    · rintro (rfl | ⟨hv, hle⟩)
      · exact Or.inl rfl
      · exact Or.inr ⟨hv, rle_trans hle (rle_of_rlt hpq)⟩
    · rintro (rfl | ⟨hv, hle⟩)
      · exact Or.inl rfl
      · refine Or.inr ⟨hv, ?_⟩
        have hrltq : rLt r q = true := rlt_of_rle_of_ne hle hrq
        rcases rlt_trichotomy r p with h | h | h
        · exact rle_of_rlt h
        · subst h; exact rle_refl r
        · exfalso
          have hqr := hmin r hv h
          have := rlt_rle_trans hrltq hqr
          rw [rlt_irrefl] at this
          simp at this

theorem run_spec (t : Bookmark) :
    ∀ (suf : List (List Nat)) (fuel : Nat) (seen : SeenMap) (p : List Nat),
    validR t p = true →
    SeenInv t seen p →
    (∀ q, (validR t q = true ∧ rLt p q = true) ↔ q ∈ suf) →
    suf.Pairwise (fun a b => rLt a b = true) →
    suf.length < fuel →
    (runIter t [] fuel ⟨seen, some p⟩).1 = suf ∧
      (runIter t [] fuel ⟨seen, some p⟩).2.iteritem = none := by
  intro suf
  induction suf with
  | nil =>
    intro fuel seen p hp hinv hmem hsor hfuel
    cases fuel with
    | zero => omega
    | succ f =>
      rcases nextCore_spec t seen p hp hinv with ⟨q, heq, hnext⟩ | ⟨heq, -⟩
      · exact absurd ((hmem q).mp ⟨hnext.1, hnext.2.1⟩) (by simp)
      · simp [runIter, next, heq]
  | cons q0 suf2 ih =>
    intro fuel seen p hp hinv hmem hsor hfuel
    cases fuel with
    | zero => simp at hfuel
    | succ f =>
      obtain ⟨hq0all, hsor2⟩ := List.pairwise_cons.mp hsor
      have hq0 : validR t q0 = true ∧ rLt p q0 = true :=
        (hmem q0).mpr (by simp)
      rcases nextCore_spec t seen p hp hinv with ⟨q, heq, hnext⟩ | ⟨heq, hmax⟩
      · have hqq0 : q = q0 := by
          have hqmem : q ∈ q0 :: suf2 := (hmem q).mp ⟨hnext.1, hnext.2.1⟩
          have hle : rLe q q0 = true := hnext.2.2 q0 hq0.1 hq0.2
          rcases List.mem_cons.mp hqmem with rfl | hq2
          · rfl
          · exfalso
            have := rlt_rle_trans (hq0all q hq2) hle
            rw [rlt_irrefl] at this
            simp at this
        rw [hqq0] at heq hnext
        have hih := ih f (setSeen seen q0 (seenN seen [])) q0 hnext.1
          (seeninv_mark t seen p q0 hinv hnext)
          (fun r => by
            constructor
            · rintro ⟨hrv, hrq0⟩
              have hpr : rLt p r = true := rlt_rle_trans hq0.2 (rle_of_rlt hrq0)
              rcases List.mem_cons.mp ((hmem r).mp ⟨hrv, hpr⟩) with rfl | hr2
              · rw [rlt_irrefl] at hrq0; simp at hrq0
              · exact hr2
            · intro hr2
              have := (hmem r).mpr (List.mem_cons_of_mem q0 hr2)
              exact ⟨this.1, hq0all r hr2⟩)
          hsor2 (by simp at hfuel; omega)
        simp only [runIter, next, heq]
        simp only [List.cons.injEq, true_and]
        exact ⟨hih.1, hih.2⟩
      · exfalso
        have := rlt_rle_trans hq0.2 (hmax q0 hq0.1)
        rw [rlt_irrefl] at this
        simp at this

/-!
## The preorder path list
-/

theorem validR_concat (d : NodeData) (cs : List Bookmark) (s2 : List Nat) (k : Nat) :
    validR (Bookmark.mk d cs) (s2 ++ [k]) = true ↔
      ∃ ck, cs[k]? = some ck ∧ validR ck s2 = true := by
  simp only [validR, nodeAtR, List.reverse_append, List.reverse_cons,
    List.reverse_nil, List.nil_append, List.singleton_append]
  show (nodeAt (Bookmark.mk d cs) (k :: s2.reverse)).isSome = true ↔ _
  simp only [nodeAt, Bookmark.children]
  cases h : cs[k]? with
  | none => simp
  | some ck => simp

theorem validR_nil (c : Bookmark) : validR c [] = true := rfl

mutual
theorem preR_mem : ∀ (c : Bookmark) (pref q : List Nat),
    q ∈ preR pref c ↔ ∃ s, s ≠ [] ∧ q = s ++ pref ∧ validR c s = true
  | .mk d cs, pref, q => by
    rw [show preR pref (Bookmark.mk d cs) = preRs pref 0 cs from rfl]
    rw [preRs_mem cs pref 0 q]
    constructor
    · rintro ⟨k, s2, hq, ck, hck, hcks⟩
      refine ⟨s2 ++ [k], by simp, ?_, ?_⟩
      · rw [hq]; simp
      · exact (validR_concat d cs s2 k).mpr ⟨ck, hck, hcks⟩
    · rintro ⟨s, hsne, hq, hvs⟩
      rcases List.eq_nil_or_concat s with rfl | ⟨s2, k, rfl⟩
      · exact absurd rfl hsne
      · rw [List.concat_eq_append] at hvs hq
        obtain ⟨ck, hck, hcks⟩ := (validR_concat d cs s2 k).mp hvs
        exact ⟨k, s2, by rw [hq]; simp, ck, hck, hcks⟩
theorem preRs_mem : ∀ (cs : List Bookmark) (pref : List Nat) (i : Nat) (q : List Nat),
    q ∈ preRs pref i cs ↔
      ∃ k s, q = s ++ ((i + k) :: pref) ∧
        ∃ ck, cs[k]? = some ck ∧ validR ck s = true
  | [], pref, i, q => by simp [preRs]
  | c :: cs, pref, i, q => by
    rw [show preRs pref i (c :: cs) =
      (i :: pref) :: (preR (i :: pref) c ++ preRs pref (i + 1) cs) from rfl]
    simp only [List.mem_cons, List.mem_append]
    rw [preR_mem c (i :: pref) q, preRs_mem cs pref (i + 1) q]
    constructor
    · rintro (rfl | ⟨s, hsne, hq, hvs⟩ | ⟨k, s, hq, ck, hck, hcks⟩)
      · exact ⟨0, [], by simp, c, by simp, validR_nil c⟩
      · exact ⟨0, s, by rw [hq]; simp, c, by simp, hvs⟩
      · refine ⟨k + 1, s, ?_, ck, by simpa using hck, hcks⟩
        rw [hq]
        have : i + 1 + k = i + (k + 1) := by omega
        rw [this]
    · rintro ⟨k, s, hq, ck, hck, hcks⟩
      cases k with
      | zero =>
        have hckc : ck = c := by
          have := hck
          simp at this
          exact this.symm
        subst hckc
        cases s with
        | nil => left; simpa using hq
        | cons a s2 =>
          right; left
          exact ⟨a :: s2, by simp, by simpa using hq, hcks⟩
      | succ k2 =>
        right; right
        refine ⟨k2, s, ?_, ck, by simpa using hck, hcks⟩
        rw [hq]
        have : i + (k2 + 1) = i + 1 + k2 := by omega
        rw [this]
end

mutual
theorem preR_pairwise : ∀ (c : Bookmark) (pref : List Nat),
    (preR pref c).Pairwise (fun a b => rLt a b = true)
  | .mk d cs, pref => by
    rw [show preR pref (Bookmark.mk d cs) = preRs pref 0 cs from rfl]
    exact preRs_pairwise cs pref 0
theorem preRs_pairwise : ∀ (cs : List Bookmark) (pref : List Nat) (i : Nat),
    (preRs pref i cs).Pairwise (fun a b => rLt a b = true)
  | [], pref, i => by simp [preRs]
  | c :: cs, pref, i => by
    rw [show preRs pref i (c :: cs) =
      (i :: pref) :: (preR (i :: pref) c ++ preRs pref (i + 1) cs) from rfl]
    rw [List.pairwise_cons]
    constructor
    · intro q hq
      rcases List.mem_append.mp hq with hq1 | hq2
      · obtain ⟨s, hsne, rfl, -⟩ := (preR_mem c (i :: pref) q).mp hq1
        exact rlt_descendant (i :: pref) s hsne
      · obtain ⟨k, s, rfl, -⟩ := (preRs_mem cs pref (i + 1) q).mp hq2
        have : (i :: pref) = ([] : List Nat) ++ i :: pref := by simp
        rw [this]
        exact rlt_diff_child [] s pref i (i + 1 + k) (by omega)
    · rw [List.pairwise_append]
      refine ⟨preR_pairwise c (i :: pref), preRs_pairwise cs pref (i + 1), ?_⟩
      intro x hx y hy
      obtain ⟨s, hsne, rfl, -⟩ := (preR_mem c (i :: pref) x).mp hx
      obtain ⟨k, s2, rfl, -⟩ := (preRs_mem cs pref (i + 1) y).mp hy
      exact rlt_diff_child s s2 pref i (i + 1 + k) (by omega)
end

mutual
theorem preR_length : ∀ (c : Bookmark) (pref : List Nat),
    (preR pref c).length = c.len
  | .mk d cs, pref => by
    rw [show preR pref (Bookmark.mk d cs) = preRs pref 0 cs from rfl]
    rw [preRs_length cs pref 0]
    rfl
theorem preRs_length : ∀ (cs : List Bookmark) (pref : List Nat) (i : Nat),
    (preRs pref i cs).length = cs.length + Bookmark.lenList cs
  | [], pref, i => rfl
  | c :: cs, pref, i => by
    rw [show preRs pref i (c :: cs) =
      (i :: pref) :: (preR (i :: pref) c ++ preRs pref (i + 1) cs) from rfl]
    simp only [List.length_cons, List.length_append]
    rw [preR_length c (i :: pref), preRs_length cs pref (i + 1)]
    simp only [List.length_cons, Bookmark.lenList]
    omega
end

/-- Fresh-run state after the run-start normalisation of `Bookmark.next`. -/
theorem runIter_init (t : Bookmark) (sp : List Nat) (f : Nat) :
    runIter t sp (f + 1) initIter =
      runIter t sp (f + 1) ⟨setSeen [] sp 1, some sp⟩ := by
  simp only [runIter, next, initIter]
  rfl

theorem seeninv_fresh (t : Bookmark) : SeenInv t (setSeen [] [] 1) [] := by
  intro q
  simp only [seen_in_run, seenN_setSeen, decide_eq_true_eq, if_true]
  constructor
  · intro h
    by_cases hq : q = []
    · exact Or.inl hq
    · rw [if_neg hq] at h
      simp [seenN, List.lookup] at h
  · rintro (rfl | ⟨-, hle⟩)
    · simp
    · have hq : q = [] := (rle_nil_right q).mp hle
      subst hq
      simp

/-- Main traversal theorem: one complete iteration run started at the tree
root produces exactly the rpaths of the proper descendants of the root, in
preorder, and ends with the cursor reset. -/
theorem iterate_root_preorder (t : Bookmark) :
    (iterateAll t []).1 = preR [] t ∧ (iterateAll t []).2.iteritem = none := by
  rw [iterateAll, show t.len + 2 = (t.len + 1) + 1 from rfl, runIter_init]
  refine run_spec t (preR [] t) ((t.len + 1) + 1) (setSeen [] [] 1) []
    (validR_nil t) (seeninv_fresh t) ?_ (preR_pairwise t []) ?_
  · intro q
    rw [preR_mem t [] q]
    constructor
    · rintro ⟨hv, hlt⟩
      have hqne : q ≠ [] := by
        rintro rfl
        rw [rlt_irrefl] at hlt
        simp at hlt
      exact ⟨q, hqne, by simp, hv⟩
    · rintro ⟨s, hsne, rfl, hv⟩
      simp only [List.append_nil]
      exact ⟨by simpa using hv, rlt_nil_left s hsne⟩
  · rw [preR_length t []]
    omega

theorem scan_congr (sp rest : List Nat) (seenA seenB : SeenMap)
    (hpred : ∀ q, seen_in_run seenA sp q = seen_in_run seenB sp q) :
    ∀ (cs : List Bookmark) (k : Nat),
    scanChildren seenA sp rest k cs = scanChildren seenB sp rest k cs := by
  intro cs
  induction cs with
  | nil => intro k; rfl
  | cons c cs ih =>
    intro k
    simp only [scanChildren, hpred]
    rw [ih (k + 1)]

theorem climb_congr (t : Bookmark) (sp : List Nat) (seenA seenB : SeenMap)
    (hpred : ∀ q, seen_in_run seenA sp q = seen_in_run seenB sp q) :
    ∀ y, climb t sp seenA y = climb t sp seenB y := by
  intro y
  induction y with
  | nil => rfl
  | cons i rest ih =>
    simp only [climb]
    cases nodeAtR t rest with
    | none => rfl
    | some par =>
      simp only [hpred, ih, scan_congr sp rest seenA seenB hpred]

theorem mark_pred (sp : List Nat) (seen : SeenMap) (q r : List Nat) :
    seen_in_run (setSeen seen q (seenN seen sp)) sp r =
      (decide (r = q) || seen_in_run seen sp r) := by
  simp only [seen_in_run, seenN_setSeen]
  by_cases hsp : sp = q
  · subst hsp
    by_cases hr : r = sp <;> simp [hr]
  · rw [if_neg hsp]
    by_cases hr : r = q
    · subst hr
      simp
    · simp [hr]

theorem mark_bnd (sp : List Nat) (seen : SeenMap) (q : List Nat)
    (hb : bndSeen sp seen) :
    bndSeen sp (setSeen seen q (seenN seen sp)) := by
  intro r
  simp only [seenN_setSeen]
  by_cases hsp : sp = q
  · subst hsp
    by_cases hr : r = sp <;> simp [hr, hb r]
  · rw [if_neg hsp]
    by_cases hr : r = q
    · simp [hr]
    · simp [hr, hb r]

theorem nextCore_rel (t : Bookmark) (sp cur : List Nat) (seenA seenB : SeenMap)
    (hpred : ∀ q, seen_in_run seenA sp q = seen_in_run seenB sp q)
    (hbA : bndSeen sp seenA) (hbB : bndSeen sp seenB) :
    (nextCore t sp seenA cur).1 = (nextCore t sp seenB cur).1 ∧
      RelIter sp (nextCore t sp seenA cur).2 (nextCore t sp seenB cur).2 := by
  have hclimb := climb_congr t sp seenA seenB hpred (descend t cur)
  simp only [nextCore, hclimb]
  cases climb t sp seenB (descend t cur) with
  | none =>
    exact ⟨rfl, rfl, hbA, hbB, fun p hp => by simp at hp⟩
  | some q =>
    refine ⟨rfl, rfl, mark_bnd sp seenA q hbA, mark_bnd sp seenB q hbB, ?_⟩
    intro p hp r
    rw [mark_pred, mark_pred, hpred r]

theorem fresh_pred (sp : List Nat) (seen : SeenMap) (hb : bndSeen sp seen)
    (q : List Nat) :
    seen_in_run (setSeen seen sp (seenN seen sp + 1)) sp q = decide (q = sp) := by
  simp only [seen_in_run, seenN_setSeen, if_pos rfl, if_true]
  by_cases hq : q = sp
  · simp [hq]
  · rw [if_neg hq]
    have := hb q
    simp only [decide_eq_false hq]
    simp only [decide_eq_false_iff_not]
    omega

theorem fresh_bnd (sp : List Nat) (seen : SeenMap) (hb : bndSeen sp seen) :
    bndSeen sp (setSeen seen sp (seenN seen sp + 1)) := by
  intro r
  simp only [seenN_setSeen, if_pos rfl, if_true]
  by_cases hr : r = sp
  · simp [hr]
  · rw [if_neg hr]
    have := hb r
    omega

theorem next_rel (t : Bookmark) (sp : List Nat) (stA stB : IterState)
    (h : RelIter sp stA stB) :
    (next t sp stA).1 = (next t sp stB).1 ∧
      RelIter sp (next t sp stA).2 (next t sp stB).2 := by
  obtain ⟨hit, hbA, hbB, hpred⟩ := h
  cases hA : stA.iteritem with
  | some p =>
    have hB : stB.iteritem = some p := hit ▸ hA
    simp only [next, hA, hB]
    exact nextCore_rel t sp p stA.seen stB.seen (hpred p hA) hbA hbB
  | none =>
    have hB : stB.iteritem = none := hit ▸ hA
    simp only [next, hA, hB]
    refine nextCore_rel t sp sp _ _ ?_ (fresh_bnd sp stA.seen hbA)
      (fresh_bnd sp stB.seen hbB)
    intro q
    rw [fresh_pred sp stA.seen hbA q, fresh_pred sp stB.seen hbB q]

theorem runIter_rel (t : Bookmark) (sp : List Nat) :
    ∀ (fuel : Nat) (stA stB : IterState), RelIter sp stA stB →
    (runIter t sp fuel stA).1 = (runIter t sp fuel stB).1 ∧
      RelIter sp (runIter t sp fuel stA).2 (runIter t sp fuel stB).2 := by
  intro fuel
  induction fuel with
  | zero => intro stA stB h; exact ⟨rfl, h⟩
  | succ f ih =>
    intro stA stB h
    have hstep := next_rel t sp stA stB h
    simp only [runIter]
    cases hA : next t sp stA with
    | mk oA stA2 =>
      cases hB : next t sp stB with
      | mk oB stB2 =>
        rw [hA, hB] at hstep
        simp only at hstep
        obtain ⟨ho, hrel⟩ := hstep
        subst ho
        cases oA with
        | none => exact ⟨rfl, hrel⟩
        | some p =>
          have hih := ih stA2 stB2 hrel
          simp only
          exact ⟨by rw [hih.1], hih.2⟩

theorem relIter_self (sp : List Nat) (st : IterState) (hb : bndSeen sp st.seen) :
    RelIter sp st st :=
  ⟨rfl, hb, hb, fun _ _ _ => rfl⟩

theorem runIter_bnd (t : Bookmark) (sp : List Nat) :
    ∀ (fuel : Nat) (st : IterState), bndSeen sp st.seen →
    bndSeen sp (runIter t sp fuel st).2.seen := by
  intro fuel
  induction fuel with
  | zero => intro st h; exact h
  | succ f ih =>
    intro st h
    have hstep := (next_rel t sp st st (relIter_self sp st h)).2
    simp only [runIter]
    cases hn : next t sp st with
    | mk o st2 =>
      rw [hn] at hstep
      cases o with
      | none => exact hstep.2.1
      | some p => exact ih st2 hstep.2.1

theorem initIter_bnd (sp : List Nat) : bndSeen sp initIter.seen := by
  intro q
  simp [initIter, seenN, List.lookup]

/-- Determinism: if a run from any start node `sp` completes within `fuel`
calls (the cursor has been reset), then re-running with the same fuel from
the final state reproduces exactly the same output sequence. -/
theorem runIter_deterministic (t : Bookmark) (sp : List Nat) (fuel : Nat)
    (hdone : (runIter t sp fuel initIter).2.iteritem = none) :
    (runIter t sp fuel (runIter t sp fuel initIter).2).1 =
      (runIter t sp fuel initIter).1 := by
  have hrel : RelIter sp initIter (runIter t sp fuel initIter).2 := by
    refine ⟨by rw [hdone]; rfl, initIter_bnd sp, ?_, ?_⟩
    · exact runIter_bnd t sp fuel initIter (initIter_bnd sp)
    · intro p hp
      simp [initIter] at hp
  exact ((runIter_rel t sp fuel initIter (runIter t sp fuel initIter).2 hrel).1).symm

/-- C1 counterexample: iterating from the non-root leaf `s = [0]` produces
exactly its sibling `[1]` — a node outside `s`'s subtree (`[0]` is not an
rpath suffix of `[1]`) — although `s` has no proper descendants. -/
theorem C1_counterexample :
    (iterateAll twoLeaves [0]).1 = [[1]] ∧
      List.isSuffixOf [0] [1] = false ∧ lenAtR twoLeaves [0] = 0 := by
  refine ⟨?_, by decide, by decide⟩
  decide

/-- C1 (amended): started at the tree root, one complete iteration run
produces exactly the rpaths of the root's proper descendants (every valid
nonempty rpath — so never the root, and nothing else), in preorder
(`preR`), with no duplicates, and ends by signalling exhaustion with the
cursor reset. -/
theorem C1_amended (t : Bookmark) :
    (iterateAll t []).1 = preR [] t ∧
    (∀ q, q ∈ (iterateAll t []).1 ↔ (validR t q = true ∧ q ≠ [])) ∧
    (iterateAll t []).1.Nodup ∧
    (iterateAll t []).2.iteritem = none := by
  obtain ⟨h1, h2⟩ := iterate_root_preorder t
  refine ⟨h1, ?_, ?_, h2⟩
  · intro q
    rw [h1, preR_mem t [] q]
    constructor
    · rintro ⟨s, hsne, rfl, hv⟩
      simp only [List.append_nil]
      exact ⟨by simpa using hv, hsne⟩
    · rintro ⟨hv, hne⟩
      exact ⟨q, hne, by simp, hv⟩
  · rw [h1]
    have hne : ∀ {a b : List Nat}, rLt a b = true → a ≠ b := by
      intro a b hab heq
      subst heq
      rw [rlt_irrefl] at hab
      simp at hab
    exact (preR_pairwise t []).imp hne

/-- C2 counterexample: a complete run from the leaf `s = [0]` of
`twoLeaves` has length 1, but `len(s) = 0`. -/
theorem C2_counterexample :
    (iterateAll twoLeaves [0]).1.length = 1 ∧ lenAtR twoLeaves [0] = 0 := by
  constructor
  · decide
  · decide

/-- C2 (amended): (1) for every start node, once a run has completed within
the given number of `next` calls (the cursor is reset), re-running with the
same budget reproduces the identical node sequence; (2) for the root, the
sequence length equals `len` of the tree. -/
theorem C2_amended :
    (∀ (t : Bookmark) (sp : List Nat) (fuel : Nat),
      (runIter t sp fuel initIter).2.iteritem = none →
      (runIter t sp fuel (runIter t sp fuel initIter).2).1 =
        (runIter t sp fuel initIter).1) ∧
    (∀ t : Bookmark, (iterateAll t []).1.length = t.len) := by
  constructor
  · intro t sp fuel hdone
    exact runIter_deterministic t sp fuel hdone
  · intro t
    rw [(iterate_root_preorder t).1, preR_length t []]

/-- Witness for `C2_amended` at a concrete input: on `twoLeaves`, run from
the leaf `[0]` with budget 4; the first run completes and the second run
reproduces it, and the root run has length `len twoLeaves = 2`. -/
theorem C2_amended_witness :
    (runIter twoLeaves [0] 4 (runIter twoLeaves [0] 4 initIter).2).1 =
      (runIter twoLeaves [0] 4 initIter).1 ∧
    (iterateAll twoLeaves []).1.length = twoLeaves.len :=
  ⟨C2_amended.1 twoLeaves [0] 4 (by decide), C2_amended.2 twoLeaves⟩

/-- C3 counterexample: `==` (lines 803-815) accepts two trees whose
grandchildren differ in `title`, because the walk stops at the immediate
children; the claimed criterion (total size plus full lockstep preorder
attribute equality) rejects them, so the claimed "iff" is false. -/
theorem C3_counterexample :
    ¬ (bmEq grandX grandY = true ↔
        (grandX.len = grandY.len ∧ lockstepPre grandX grandY = true)) := by
  decide

/-- C3 (amended): `a == b` holds iff the two trees have the same total
descendant count, the two roots have identical compared attributes, and each
pair of immediate children matched up by `zip` has identical compared
attributes; no deeper node is compared. -/
theorem C3_amended (a b : Bookmark) :
    bmEq a b = true ↔
      (a.len = b.len ∧ has_same_attrs_as a b = true ∧
        ((a.children.zip b.children).all fun pr =>
          has_same_attrs_as pr.1 pr.2) = true) := by
  rw [bmEq]
  by_cases h1 : a.len = b.len
  · rw [if_pos h1]
    by_cases h2 : has_same_attrs_as a b = true
    · rw [if_pos h2]
      constructor
      · intro h3
        exact ⟨h1, h2, h3⟩
      · rintro ⟨-, -, h3⟩
        exact h3
    · rw [if_neg h2]
      constructor
      · intro h
        simp at h
      · rintro ⟨-, h2x, -⟩
        exact absurd h2x h2
  · rw [if_neg h1]
    constructor
    · intro h
      simp at h
    · rintro ⟨h1x, -, -⟩
      exact absurd h1x h1

theorem set_last (x : Bookmark) : ∀ (cs : List Bookmark) (a : Bookmark),
    (cs ++ [a]).set cs.length x = cs ++ [x] := by
  intro cs
  induction cs with
  | nil => intro a; rfl
  | cons c cs ih => intro a; simp [List.set, ih]

theorem pyIdx_neg_one (n : Nat) : pyIdx (-1) (n + 1) = some n := by
  simp only [pyIdx]
  rw [if_neg (by omega), if_pos (by constructor <;> omega)]
  norm_num

theorem set_child_last (b c : Bookmark) :
    set_child (newchild b) (-1) c =
      Bookmark.mk b.data (b.children ++ [reparentL b.data.level c]) := by
  cases b with
  | mk d cs =>
    simp only [newchild, set_child, Bookmark.children, Bookmark.data,
      List.length_append, List.length_cons, List.length_nil, pyIdx_neg_one]
    rw [set_last]
    rfl

theorem iadd_fold : ∀ (cs2 : List Bookmark) (b : Bookmark),
    cs2.foldl (fun acc c => set_child (newchild acc) (-1) c) b =
      Bookmark.mk b.data (b.children ++ cs2.map (reparentL b.data.level)) := by
  intro cs2
  induction cs2 with
  | nil =>
    intro b
    cases b with
    | mk d cs => simp [Bookmark.data, Bookmark.children]
  | cons c cs ih =>
    intro b
    rw [List.foldl_cons, set_child_last, ih]
    simp [Bookmark.data, Bookmark.children, List.append_assoc]

theorem iadd_eq (b other : Bookmark) :
    iadd b other =
      Bookmark.mk b.data (b.children ++ other.children.map (reparentL b.data.level)) :=
  iadd_fold other.children b

theorem lenList_append : ∀ (xs ys : List Bookmark),
    Bookmark.lenList (xs ++ ys) = Bookmark.lenList xs + Bookmark.lenList ys := by
  intro xs
  induction xs with
  | nil => intro ys; simp [Bookmark.lenList]
  | cons x xs ih => intro ys; simp [Bookmark.lenList, ih]; omega

mutual
theorem levelShift_len : ∀ (d : Int) (c : Bookmark),
    (levelShift d c).len = c.len
  | d, .mk nd cs => by
    simp only [levelShift, Bookmark.len]
    rw [levelShiftList_len d cs, levelShiftList_length d cs]
theorem levelShiftList_len : ∀ (d : Int) (cs : List Bookmark),
    Bookmark.lenList (levelShiftList d cs) = Bookmark.lenList cs
  | d, [] => rfl
  | d, c :: cs => by
    simp only [levelShiftList, Bookmark.lenList]
    rw [levelShift_len d c, levelShiftList_len d cs]
theorem levelShiftList_length : ∀ (d : Int) (cs : List Bookmark),
    (levelShiftList d cs).length = cs.length
  | d, [] => rfl
  | d, c :: cs => by
    simp only [levelShiftList, List.length_cons]
    rw [levelShiftList_length d cs]
end

theorem len_data_free (d1 d2 : NodeData) (cs : List Bookmark) :
    (Bookmark.mk d1 cs).len = (Bookmark.mk d2 cs).len := rfl

theorem reparentL_len (lvl : Int) (c : Bookmark) : (reparentL lvl c).len = c.len := by
  have h1 : (reparentL lvl c).len = (levelShift (lvl + 1 - c.data.level) c).len := by
    cases hs : levelShift (lvl + 1 - c.data.level) c with
    | mk d2 cs2 =>
      simp only [reparentL, hs]
      rfl
  rw [h1, levelShift_len]

theorem lenList_map_reparent (lvl : Int) : ∀ (cs : List Bookmark),
    Bookmark.lenList (cs.map (reparentL lvl)) = Bookmark.lenList cs := by
  intro cs
  induction cs with
  | nil => rfl
  | cons c cs ih =>
    simp only [List.map_cons, Bookmark.lenList]
    rw [reparentL_len, ih]

/-- C4 counterexample: after `B += C` the source has not removed anything
from `C._children` (`__iadd__` only calls `self.newchild` and
`self.set_child`), so `C`'s child list still holds its former top-level
child — the claim that `C` has lost those children is false. -/
theorem C4_counterexample : (iaddOther bB cC).children.length ≠ 0 := by decide

/-- C4 (amended): `B += C` appends every top-level child of `C`, in order,
as a child of `B` (re-levelled relative to `B`, stored child index the raw
`-1` that `set_child` received); `len(B)` grows by exactly `len(C)`; but `C`
does **not** lose those children: its child list keeps its length (the
children merely report recomputed fields). -/
theorem C4_amended :
    (∀ b other : Bookmark,
      (iadd b other).children =
        b.children ++ other.children.map (reparentL b.data.level)) ∧
    (∀ b other : Bookmark, (iadd b other).len = b.len + other.len) ∧
    (∀ b other : Bookmark,
      (iaddOther b other).children.length = other.children.length) := by
  refine ⟨?_, ?_, ?_⟩
  · intro b other
    rw [iadd_eq]
    rfl
  · intro b other
    rw [iadd_eq]
    cases b with
    | mk d cs =>
      cases other with
      | mk d2 cs2 =>
        simp only [Bookmark.len, Bookmark.children, List.length_append,
          List.length_map]
        rw [lenList_append, lenList_map_reparent]
        omega
  · intro b other
    cases other with
    | mk d2 cs2 => simp [iaddOther, Bookmark.children]

/-- C7 evaluation at the failing input: after `B += C`, `B`'s second child
(index 1) stores `_childnumber = -1` — `set_child` stores the raw index
argument (line 612), so a negative index breaks the claimed invariant. -/
theorem C7_code_bug_eval :
    (iadd bC7 cC7).children.length = 2 ∧
      ((iadd bC7 cC7).children.map (fun c => c.data.childnumber)) = [0, -1] := by
  constructor
  · decide
  · decide

/-- C9 counterexample: the code escapes the semicolon (the csv field
delimiter) and passes the colon through — the opposite of the claim — so
`escape` differs from the claimed map on both `";"` and `":"`. -/
theorem C9_counterexample :
    escChars [';'] ≠ claimC9Map [';'] ∧ escChars [':'] ≠ claimC9Map [':'] := by
  constructor
  · decide
  · decide

theorem escapeCharN_clean : ∀ n, n < 128 → escapeCharN n = cleanEscapeCharN n := by
  decide

theorem escCond_lt (c : Char) (h : escCond c = true) : c.toNat < 128 := by
  simp only [escCond, Bool.or_eq_true, decide_eq_true_eq] at h
  rcases h with ((((h | h) | h) | h) | h)
  · omega
  · subst h; decide
  · subst h; decide
  · subst h; decide
  · subst h; decide

/-- C9 (amended): every character with code below 32 and the four characters
backslash, **semicolon**, double quote, single quote are replaced by `\HH`
with `HH` the two-digit upper-case hex code; every other character — in
particular the **colon** — passes through unchanged. -/
theorem C9_amended (cs : List Char) :
    escChars cs =
      (cs.map (fun c => if escCond c then cleanEscapeCharN c.toNat else [c])).flatten := by
  induction cs with
  | nil => rfl
  | cons c rest ih =>
    simp only [escChars, List.map_cons, List.flatten_cons]
    rw [ih]
    by_cases h : escCond c = true
    · rw [if_pos h, if_pos h, escapeCharN_clean c.toNat (escCond_lt c h)]
    · rw [if_neg h, if_neg h]

mutual
theorem shiftNode_eq : ∀ (c : Bookmark) (k : Int),
    shiftNode c k = (mapPagesNode c (fun p => if p + k < 0 then 0 else p + k),
      countPagesNode c (fun p => decide (p + k < 0)))
  | .mk d cs, k => by
    simp only [shiftNode, mapPagesNode, countPagesNode, setPage]
    rw [shiftList_eq cs k]
    by_cases h : d.page + k < 0
    · simp [h]
    · simp [h]
theorem shiftList_eq : ∀ (cs : List Bookmark) (k : Int),
    shiftList cs k = (mapPagesList cs (fun p => if p + k < 0 then 0 else p + k),
      countPagesList cs (fun p => decide (p + k < 0)))
  | [], k => rfl
  | c :: cs, k => by
    simp only [shiftList, mapPagesList, countPagesList]
    rw [shiftNode_eq c k, shiftList_eq cs k]
end

/-- C10 (confirmed): for a negative offset the shift saturates at zero per
node — every descendant whose page plus offset would be negative ends at 0
and contributes one warning, every other descendant is shifted normally —
and the operation always completes. -/
theorem C10_saturation (t : Bookmark) (k : Int) (hk : k < 0) :
    (shift_pagenumber t k).1 = mapPagesDesc t (fun p => if p + k < 0 then 0 else p + k) ∧
    (shift_pagenumber t k).2 = countPagesDesc t (fun p => decide (p + k < 0)) := by
  cases t with
  | mk d cs =>
    simp only [shift_pagenumber, mapPagesDesc, countPagesDesc]
    rw [shiftList_eq cs k]
    exact ⟨rfl, rfl⟩

/-- Witness for `C10_saturation`: offset `-1` on a tree with pages 0 and 2:
the first child saturates at 0 with one warning, the second shifts to 1. -/
theorem C10_saturation_witness :
    (shift_pagenumber (.mk {} [.mk { page := 0 } [], .mk { page := 2 } []]) (-1)).1 =
      mapPagesDesc (.mk {} [.mk { page := 0 } [], .mk { page := 2 } []])
        (fun p => if p + (-1) < 0 then 0 else p + (-1)) ∧
    (shift_pagenumber (.mk {} [.mk { page := 0 } [], .mk { page := 2 } []]) (-1)).2 =
      countPagesDesc (.mk {} [.mk { page := 0 } [], .mk { page := 2 } []])
        (fun p => decide (p + (-1) < 0)) :=
  C10_saturation (.mk {} [.mk { page := 0 } [], .mk { page := 2 } []]) (-1) (by decide)

mutual
theorem shift_unshift_node : ∀ (c : Bookmark) (k : Int),
    allPagesNode c (fun p => decide (0 ≤ p) && decide (0 ≤ p + k)) = true →
    (shiftNode (shiftNode c k).1 (-k)).1 = c
  | .mk d cs, k => by
    intro h
    simp only [allPagesNode, Bool.and_eq_true, decide_eq_true_eq] at h
    obtain ⟨⟨h1, h2⟩, h3⟩ := h
    have hs1 : setPage (d.page + k) = (d.page + k, 0) := by
      simp only [setPage]
      rw [if_neg (by omega)]
    have hs2 : setPage (d.page + k + -k) = (d.page, 0) := by
      simp only [setPage]
      rw [if_neg (by omega)]
      have harith : d.page + k + -k = d.page := by omega
      rw [harith]
    simp only [shiftNode, hs1, hs2]
    rw [shift_unshift_list cs k h3]
theorem shift_unshift_list : ∀ (cs : List Bookmark) (k : Int),
    allPagesDescList cs (fun p => decide (0 ≤ p) && decide (0 ≤ p + k)) = true →
    (shiftList (shiftList cs k).1 (-k)).1 = cs
  | [], k => by intro h; rfl
  | c :: cs, k => by
    intro h
    simp only [allPagesDescList, Bool.and_eq_true] at h
    simp only [shiftList]
    rw [shift_unshift_node c k h.1, shift_unshift_list cs k h.2]
end

/-- C8 (confirmed): shifting the root's tree by `k` and then by `-k`
restores every page, provided no node's page is driven below zero by either
application (page is non-negative before, and non-negative after adding
`k`). -/
theorem C8_shift_inverse (t : Bookmark) (k : Int)
    (h : allPagesDesc t (fun p => decide (0 ≤ p) && decide (0 ≤ p + k)) = true) :
    (shift_pagenumber (shift_pagenumber t k).1 (-k)).1 = t := by
  cases t with
  | mk d cs =>
    simp only [allPagesDesc] at h
    simp only [shift_pagenumber]
    rw [shift_unshift_list cs k h]

/-- Witness for `C8_shift_inverse`: pages 1, 2, 3 with offset 2. -/
theorem C8_shift_inverse_witness :
    (shift_pagenumber
      (shift_pagenumber
        (.mk {} [.mk { page := 1 } [.mk { page := 2 } []], .mk { page := 3 } []]) 2).1
      (-2)).1 =
    (.mk {} [.mk { page := 1 } [.mk { page := 2 } []], .mk { page := 3 } []]) :=
  C8_shift_inverse
    (.mk {} [.mk { page := 1 } [.mk { page := 2 } []], .mk { page := 3 } []]) 2
    (by decide)

/-- C6 counterexample: `page` does not retain its prior value on an invalid
assignment — `__setattr__` replaces it by 0 (lines 514-518).  A node with
`page = 5` assigned the string `"x"` ends with `page = 0`, not 5. -/
theorem C6_counterexample :
    (setAttr { page := 5 } AttrName.page (PyVal.vstr "x")).1.page = 0 ∧
    (setAttr { page := 5 } AttrName.page (PyVal.vstr "x")).2.length = 1 ∧
    ({ page := 5 } : NodeData).page = 5 := by
  refine ⟨?_, ?_, rfl⟩
  · decide
  · decide

/-- C6 (amended): rejected assignments to `destination`, `color`, `action`
and the boolean attributes retain the prior value and produce diagnostics (a
destination or color rejection emits three `warn` lines, not one); `page` is
the exception: an invalid `page` assignment is replaced by 0, not retained,
with one warning.  In particular the node with destination
`"XYZ 100 200 0"` assigned `"BadDest"` keeps its destination. -/
theorem C6_amended :
    (∀ (d : NodeData) (s : String), reMatches destRE (pyStrip s) = false →
      setAttr d AttrName.destination (PyVal.vstr s) =
        (d, [warnDest1, warnDest2, warnDest3])) ∧
    (∀ (d : NodeData) (s : String), reMatches colorRE (pyStrip s) = false →
      setAttr d AttrName.color (PyVal.vstr s) =
        (d, [warnColor1, warnColor2, warnColor3])) ∧
    (∀ (d : NodeData) (s : String), actionOk (PyVal.vstr s) = false →
      setAttr d AttrName.action (PyVal.vstr s) = (d, [warnAction])) ∧
    (∀ (d : NodeData) (name : AttrName) (v : PyVal),
      (name = AttrName.italic ∨ name = AttrName.bold ∨ name = AttrName.open_ ∨
        name = AttrName.newwindow) → boolReject name v = true →
      setAttr d name v = (d, [warnBool])) ∧
    (∀ (d : NodeData) (v : PyVal), pageOk v = false →
      setAttr d AttrName.page v = ({ d with page := 0 }, [warnPage])) ∧
    (setAttr d1C6 AttrName.destination (PyVal.vstr "BadDest") =
      (d1C6, [warnDest1, warnDest2, warnDest3]) ∧
      d1C6.destination = some "XYZ 100 200 0") := by
  refine ⟨?_, ?_, ?_, ?_, ?_, ?_, ?_⟩
  · intro d s h
    simp [setAttr, Id.run, textConv, grammarStep, h]
  · intro d s h
    simp [setAttr, Id.run, textConv, grammarStep, h]
  · intro d s h
    simp [setAttr, Id.run, textConv, h]
  · intro d name v hname hrej
    rcases hname with rfl | rfl | rfl | rfl <;>
      simp [setAttr, Id.run, hrej]
  · intro d v h
    simp [setAttr, Id.run, h, assignAttr, pyValInt]
  · decide
  · decide

theorem nodeAt_cons (b : Bookmark) (i : Nat) (fp : List Nat) :
    nodeAt b (i :: fp) =
      match b.children[i]? with
      | some c => nodeAt c fp
      | none => none := rfl

theorem dataAt_updateAt_mapData :
    ∀ (fp : List Nat) (b : Bookmark) (g : NodeData → NodeData) (q : List Nat),
    validF b fp = true →
    dataAtF (updateAt b fp (mapData g)) q =
      if q = fp then (dataAtF b q).map g else dataAtF b q := by
  intro fp
  induction fp with
  | nil =>
    intro b g q hv
    cases b with
    | mk d cs =>
      cases q with
      | nil => simp [updateAt, mapData, dataAtF, nodeAt, Bookmark.data]
      | cons j q2 =>
        rw [if_neg (by simp)]
        simp only [updateAt, mapData, dataAtF, nodeAt_cons, Bookmark.children]
  | cons i fp2 ih =>
    intro b g q hv
    cases b with
    | mk d cs =>
      have hvi : ∃ c, cs[i]? = some c := by
        simp only [validF, nodeAt_cons, Bookmark.children] at hv
        cases hcs : cs[i]? with
        | none => rw [hcs] at hv; simp at hv
        | some c => exact ⟨c, rfl⟩
      obtain ⟨c, hc⟩ := hvi
      have hvc : validF c fp2 = true := by
        simp only [validF, nodeAt_cons, Bookmark.children, hc] at hv ⊢
        exact hv
      simp only [updateAt, Bookmark.children, hc]
      cases q with
      | nil =>
        rw [if_neg (by simp)]
        simp [dataAtF, nodeAt, Bookmark.data]
      | cons j q2 =>
        by_cases hji : j = i
        · subst hji
          have hlen : j < cs.length := (List.getElem?_eq_some.mp hc).1
          simp only [dataAtF, nodeAt_cons, Bookmark.children,
            List.getElem?_set_self hlen, hc]
          have := ih c g q2 hvc
          simp only [dataAtF] at this
          rw [this]
          by_cases hq : q2 = fp2
          · rw [if_pos hq, if_pos (by rw [hq])]
          · rw [if_neg hq, if_neg (by simp [hq])]
        · rw [if_neg (by simp [hji])]
          simp only [dataAtF, nodeAt_cons, Bookmark.children,
            List.getElem?_set_ne (fun h => hji h.symm)]

theorem updateAt_append : ∀ (fp fp2 : List Nat) (b : Bookmark) (f : Bookmark → Bookmark),
    updateAt b (fp ++ fp2) f = updateAt b fp (fun n => updateAt n fp2 f) := by
  intro fp
  induction fp with
  | nil => intro fp2 b f; rfl
  | cons i fp1 ih =>
    intro fp2 b f
    cases b with
    | mk d cs =>
      cases hc : cs[i]? with
      | none =>
        simp only [List.cons_append, updateAt, Bookmark.children, hc]
      | some c =>
        simp only [List.cons_append, updateAt, Bookmark.children, hc]
        rw [show fp1.append fp2 = fp1 ++ fp2 from rfl, ih]

theorem updateAt_updateAt : ∀ (fp : List Nat) (b : Bookmark) (f g : Bookmark → Bookmark),
    updateAt (updateAt b fp f) fp g = updateAt b fp (fun n => g (f n)) := by
  intro fp
  induction fp with
  | nil => intro b f g; rfl
  | cons i fp2 ih =>
    intro b f g
    cases b with
    | mk d cs =>
      simp only [updateAt, Bookmark.children]
      cases hc : cs[i]? with
      | none => simp [updateAt, Bookmark.children, hc]
      | some c =>
        have hlen : i < cs.length := (List.getElem?_eq_some.mp hc).1
        simp only [updateAt, Bookmark.children, List.getElem?_set_self hlen]
        rw [List.set_set, ih]

theorem updateAt_congr_at : ∀ (fp : List Nat) (b n : Bookmark) (f g : Bookmark → Bookmark),
    nodeAt b fp = some n → f n = g n → updateAt b fp f = updateAt b fp g := by
  intro fp
  induction fp with
  | nil =>
    intro b n f g hn hfg
    simp only [nodeAt] at hn
    injection hn with hn
    subst hn
    exact hfg
  | cons i fp2 ih =>
    intro b n f g hn hfg
    cases b with
    | mk d cs =>
      simp only [nodeAt_cons, Bookmark.children] at hn
      cases hc : cs[i]? with
      | none => rw [hc] at hn; simp at hn
      | some c =>
        rw [hc] at hn
        simp only [updateAt, Bookmark.children, hc]
        rw [ih c n f g hn hfg]

theorem nodeAt_updateAt_self : ∀ (fp : List Nat) (b n : Bookmark) (f : Bookmark → Bookmark),
    nodeAt b fp = some n → nodeAt (updateAt b fp f) fp = some (f n) := by
  intro fp
  induction fp with
  | nil =>
    intro b n f hn
    simp only [nodeAt] at hn
    injection hn with hn
    subst hn
    rfl
  | cons i fp2 ih =>
    intro b n f hn
    cases b with
    | mk d cs =>
      simp only [nodeAt_cons, Bookmark.children] at hn
      cases hc : cs[i]? with
      | none => rw [hc] at hn; simp at hn
      | some c =>
        rw [hc] at hn
        have hlen : i < cs.length := (List.getElem?_eq_some.mp hc).1
        simp only [updateAt, Bookmark.children, hc, nodeAt_cons,
          List.getElem?_set_self hlen]
        exact ih c n f hn

theorem lenList_set : ∀ (cs : List Bookmark) (i : Nat) (c c2 : Bookmark),
    cs[i]? = some c →
    Bookmark.lenList (cs.set i c2) + c.len = Bookmark.lenList cs + c2.len := by
  intro cs
  induction cs with
  | nil => intro i c c2 h; simp at h
  | cons x xs ih =>
    intro i c c2 h
    cases i with
    | zero =>
      simp only [List.getElem?_cons_zero] at h
      injection h with h
      subst h
      simp only [List.set_cons_zero, Bookmark.lenList]
      omega
    | succ i2 =>
      simp only [List.getElem?_cons_succ] at h
      simp only [List.set_cons_succ, Bookmark.lenList]
      have := ih i2 c c2 h
      omega

theorem len_updateAt : ∀ (fp : List Nat) (b n : Bookmark) (f : Bookmark → Bookmark),
    nodeAt b fp = some n →
    (updateAt b fp f).len + n.len = b.len + (f n).len := by
  intro fp
  induction fp with
  | nil =>
    intro b n f hn
    simp only [nodeAt] at hn
    injection hn with hn
    subst hn
    simp only [updateAt]
    omega
  | cons i fp2 ih =>
    intro b n f hn
    cases b with
    | mk d cs =>
      simp only [nodeAt_cons, Bookmark.children] at hn
      cases hc : cs[i]? with
      | none => rw [hc] at hn; simp at hn
      | some c =>
        rw [hc] at hn
        simp only [updateAt, Bookmark.children, hc, Bookmark.len, List.length_set]
        have h1 := lenList_set cs i c (updateAt c fp2 f) hc
        have h2 := ih c n f hn
        omega

mutual
theorem preR_mapData : ∀ (fp : List Nat) (b : Bookmark) (g : NodeData → NodeData)
    (pref : List Nat), preR pref (updateAt b fp (mapData g)) = preR pref b
  | [], .mk d cs, g, pref => rfl
  | i :: fp2, .mk d cs, g, pref => by
    simp only [updateAt, Bookmark.children]
    cases hc : cs[i]? with
    | none => rfl
    | some c =>
      rw [show preR pref (Bookmark.mk d (cs.set i (updateAt c fp2 (mapData g)))) =
        preRs pref 0 (cs.set i (updateAt c fp2 (mapData g))) from rfl]
      rw [show preR pref (Bookmark.mk d cs) = preRs pref 0 cs from rfl]
      exact preRs_mapData fp2 cs 0 i c g pref hc
theorem preRs_mapData : ∀ (fp2 : List Nat) (cs : List Bookmark) (j i : Nat)
    (c : Bookmark) (g : NodeData → NodeData) (pref : List Nat),
    cs[i]? = some c →
    preRs pref j (cs.set i (updateAt c fp2 (mapData g))) = preRs pref j cs
  | fp2, [], j, i, c, g, pref => by intro h; simp at h
  | fp2, x :: xs, j, 0, c, g, pref => by
    intro h
    have hx : x = c := by
      simp only [List.getElem?_cons_zero] at h
      injection h
    simp only [List.set_cons_zero]
    rw [show preRs pref j (updateAt c fp2 (mapData g) :: xs) =
      (j :: pref) :: (preR (j :: pref) (updateAt c fp2 (mapData g)) ++ preRs pref (j + 1) xs)
      from rfl]
    rw [show preRs pref j (x :: xs) =
      (j :: pref) :: (preR (j :: pref) x ++ preRs pref (j + 1) xs) from rfl]
    rw [preR_mapData fp2 c g (j :: pref), hx]
  | fp2, x :: xs, j, i + 1, c, g, pref => by
    intro h
    simp only [List.getElem?_cons_succ] at h
    simp only [List.set_cons_succ]
    rw [show preRs pref j (x :: xs.set i (updateAt c fp2 (mapData g))) =
      (j :: pref) :: (preR (j :: pref) x ++ preRs pref (j + 1) (xs.set i (updateAt c fp2 (mapData g))))
      from rfl]
    rw [show preRs pref j (x :: xs) =
      (j :: pref) :: (preR (j :: pref) x ++ preRs pref (j + 1) xs) from rfl]
    rw [preRs_mapData fp2 xs (j + 1) i c g pref h]
end

theorem noFlagsList_get : ∀ (cs : List Bookmark) (i : Nat) (c : Bookmark),
    noFlagsList cs = true → cs[i]? = some c → noFlags c = true := by
  intro cs
  induction cs with
  | nil => intro i c h hc; simp at hc
  | cons x xs ih =>
    intro i c h hc
    simp only [noFlagsList, Bool.and_eq_true] at h
    cases i with
    | zero =>
      simp only [List.getElem?_cons_zero] at hc
      injection hc with hc
      subst hc
      exact h.1
    | succ i2 =>
      simp only [List.getElem?_cons_succ] at hc
      exact ih i2 c h.2 hc

theorem noFlags_at : ∀ (fp : List Nat) (b n : Bookmark),
    noFlags b = true → nodeAt b fp = some n → n.data.deleteFlag = false := by
  intro fp
  induction fp with
  | nil =>
    intro b n h hn
    simp only [nodeAt] at hn
    injection hn with hn
    subst hn
    cases b with
    | mk d cs =>
      simp only [noFlags, Bool.and_eq_true, Bool.not_eq_true'] at h
      exact h.1
  | cons i fp2 ih =>
    intro b n h hn
    cases b with
    | mk d cs =>
      simp only [nodeAt_cons, Bookmark.children] at hn
      cases hc : cs[i]? with
      | none => rw [hc] at hn; simp at hn
      | some c =>
        rw [hc] at hn
        simp only [noFlags, Bool.and_eq_true] at h
        exact ih c n (noFlagsList_get cs i c h.2 hc) hn

theorem wfChildren_get : ∀ (cs : List Bookmark) (j i : Nat) (c : Bookmark),
    wfChildren j cs = true → cs[i]? = some c →
    c.data.childnumber = ((j + i : Nat) : Int) ∧ wfNode c = true := by
  intro cs
  induction cs with
  | nil => intro j i c h hc; simp at hc
  | cons x xs ih =>
    intro j i c h hc
    simp only [wfChildren, Bool.and_eq_true, decide_eq_true_eq] at h
    cases i with
    | zero =>
      simp only [List.getElem?_cons_zero] at hc
      injection hc with hc
      subst hc
      refine ⟨?_, h.1.2⟩
      rw [h.1.1]
      congr 1
    | succ i2 =>
      simp only [List.getElem?_cons_succ] at hc
      have := ih (j + 1) i2 c h.2 hc
      refine ⟨?_, this.2⟩
      rw [this.1]
      congr 1
      omega

theorem wf_at : ∀ (fp : List Nat) (b : Bookmark),
    wfNode b = true → ∀ (k : Nat) (n : Bookmark),
    nodeAt b (fp ++ [k]) = some n → n.data.childnumber = (k : Int) := by
  intro fp
  induction fp with
  | nil =>
    intro b h k n hn
    rw [List.nil_append, nodeAt_single] at hn
    cases b with
    | mk d cs =>
      have := wfChildren_get cs 0 k n h hn
      rw [this.1]
      congr 1
      omega
  | cons i fp2 ih =>
    intro b h k n hn
    cases b with
    | mk d cs =>
      rw [List.cons_append, nodeAt_cons] at hn
      simp only [Bookmark.children] at hn
      cases hc : cs[i]? with
      | none => rw [hc] at hn; simp at hn
      | some c =>
        rw [hc] at hn
        have hwfc := (wfChildren_get cs 0 i c h hc).2
        exact ih c hwfc k n hn

theorem filter_eq_singleton :
    ∀ (l : List (List Nat)) (x : List Nat) (pr : List Nat → Bool),
    l.Nodup → x ∈ l → (∀ y ∈ l, pr y = true ↔ y = x) → l.filter pr = [x] := by
  intro l
  induction l with
  | nil => intro x pr hnd hx h; simp at hx
  | cons y0 l2 ih =>
    intro x pr hnd hx h
    obtain ⟨hy0, hnd2⟩ := List.nodup_cons.mp hnd
    rcases List.mem_cons.mp hx with rfl | hx2
    · rw [List.filter_cons_of_pos ((h x (by simp)).mpr rfl)]
      have hnil : l2.filter pr = [] := by
        rw [List.filter_eq_nil_iff]
        intro y hy habs
        have := (h y (List.mem_cons_of_mem _ hy)).mp habs
        subst this
        exact hy0 hy
      rw [hnil]
    · have hy0x : y0 ≠ x := fun habs => hy0 (habs ▸ hx2)
      rw [List.filter_cons_of_neg (fun habs => hy0x ((h y0 (by simp)).mp habs))]
      exact ih x pr hnd2 hx2 (fun y hy => h y (List.mem_cons_of_mem _ hy))

theorem pyIdx_nat (k n : Nat) (hk : k < n) : pyIdx (k : Int) n = some k := by
  simp only [pyIdx]
  rw [if_pos (by constructor <;> omega)]
  simp

theorem obliterate_child_eq (b : Bookmark) (k : Nat) (hk : k < b.children.length) :
    obliterate_child b (k : Int) = dropSlot k b := by
  cases b with
  | mk d cs =>
    simp only [Bookmark.children] at hk
    simp only [obliterate_child, Bookmark.children, pyIdx_nat k cs.length hk]
    rfl

theorem mapData_len (g : NodeData → NodeData) (b : Bookmark) :
    (mapData g b).len = b.len := by
  cases b with
  | mk d cs => rfl

theorem flag_then_obliterate (par ck : Bookmark) (k : Nat)
    (hk : par.children[k]? = some ck) :
    obliterate_child (updateAt par [k] (mapData setFlagD)) (k : Int) =
      dropSlot k par := by
  cases par with
  | mk d cs =>
    simp only [Bookmark.children] at hk
    have hlen : k < cs.length := (List.getElem?_eq_some.mp hk).1
    simp only [updateAt, Bookmark.children, hk]
    rw [obliterate_child_eq _ k (by
      simp only [Bookmark.children, List.length_set]
      exact hlen)]
    simp only [dropSlot, Bookmark.children, Bookmark.data]
    congr 1
    congr 1
    · rw [List.set_take]
      exact List.set_eq_of_length_le (by rw [List.length_take]; omega)
    · congr 1
      rw [List.drop_set]
      rw [if_pos (by omega)]

theorem lenList_map_cnDec : ∀ (cs : List Bookmark),
    Bookmark.lenList (cs.map cnDec) = Bookmark.lenList cs := by
  intro cs
  induction cs with
  | nil => rfl
  | cons c cs ih =>
    simp only [List.map_cons, Bookmark.lenList, ih]
    congr 1
    cases c with
    | mk d cs2 => rfl

theorem preR_nodup (t : Bookmark) : (preR [] t).Nodup := by
  have hne : ∀ {a b : List Nat}, rLt a b = true → a ≠ b := by
    intro a b hab heq
    subst heq
    rw [rlt_irrefl] at hab
    simp at hab
  exact (preR_pairwise t []).imp hne

theorem rev_inj {q p : List Nat} (h : q.reverse = p.reverse) : q = p := by
  have h2 := congrArg List.reverse h
  simpa using h2

theorem flagPredR (t : Bookmark) (q : List Nat) :
    (match nodeAtR t q with | some n => n.data.deleteFlag | none => false) =
      ((dataAtF t q.reverse).map NodeData.deleteFlag).getD false := by
  simp only [dataAtF, nodeAtR]
  cases hq : nodeAt t q.reverse with
  | none => simp [hq]
  | some n => simp [hq]

/-- C5 (confirmed): on a tree with consistent stored child indices and no
prior deletion flags, flagging the node at `k :: rest` via `delete` and then
calling `flush` on the root detaches exactly that node: the whole tree
equals the original with child slot `k` of the parent removed (later
siblings reindexed), `len` of the root decreases by exactly 1 plus the
number of the node's own descendants, and the parent's child list has lost
exactly that entry. -/
theorem C5_delete_flush (t : Bookmark) (k : Nat) (rest : List Nat)
    (hval : validR t (k :: rest) = true)
    (hwf : wfNode t = true) (hnf : noFlags t = true) :
    flush (deleteAt t (k :: rest)) = updateAtR t rest (dropSlot k) ∧
    (flush (deleteAt t (k :: rest))).len + 1 + lenAtR t (k :: rest) = t.len ∧
    (∀ par, nodeAtR t rest = some par →
      (nodeAtR (flush (deleteAt t (k :: rest))) rest).map Bookmark.children =
        some (par.children.take k ++ (par.children.drop (k + 1)).map cnDec)) := by
  have hrestv : validR t rest = true := ((validR_cons_iff t k rest).mp hval).1
  obtain ⟨par, hpar⟩ := Option.isSome_iff_exists.mp
    (by rw [validR] at hrestv; exact hrestv)
  have hparF : nodeAt t rest.reverse = some par := hpar
  have hckk : ∃ ck, par.children[k]? = some ck := by
    have h2 := hval
    rw [validR, nodeAtR_cons, hpar] at h2
    simp only [Option.some_bind] at h2
    exact Option.isSome_iff_exists.mp h2
  obtain ⟨ck, hckk⟩ := hckk
  have hck2 : nodeAtR t (k :: rest) = some ck := by
    rw [nodeAtR_cons, hpar]
    simp [hckk]
  have hnp : nodeAt t (rest.reverse ++ [k]) = some ck := by
    have h3 : (k :: rest).reverse = rest.reverse ++ [k] := by simp
    rw [← h3]
    exact hck2
  have ht' : deleteAt t (k :: rest) =
      updateAt t (rest.reverse ++ [k]) (mapData setFlagD) := by
    rw [deleteAt, updateAtR, List.reverse_cons]
  have hvalF : validF t (rest.reverse ++ [k]) = true := by
    rw [validF, hnp]
    rfl
  have hrun : (iterateAll (deleteAt t (k :: rest)) []).1 = preR [] t := by
    rw [(iterate_root_preorder (deleteAt t (k :: rest))).1, ht',
      preR_mapData (rest.reverse ++ [k]) t setFlagD []]
  have hpred : ∀ q ∈ preR [] t,
      ((match nodeAtR (deleteAt t (k :: rest)) q with
        | some n => n.data.deleteFlag
        | none => false) = true ↔ q = k :: rest) := by
    intro q hq
    have hqv : validR t q = true := by
      obtain ⟨s, hsne, hqs, hvs⟩ := (preR_mem t [] q).mp hq
      rw [hqs]
      simpa using hvs
    rw [flagPredR, ht',
      dataAt_updateAt_mapData (rest.reverse ++ [k]) t setFlagD q.reverse hvalF]
    obtain ⟨nq, hnq⟩ := Option.isSome_iff_exists.mp (by rw [validR] at hqv; exact hqv)
    have hnqF : nodeAt t q.reverse = some nq := hnq
    by_cases hqp : q = k :: rest
    · subst hqp
      rw [if_pos (by simp)]
      simp only [dataAtF, hnqF, Option.map_some]
      simp [setFlagD]
    · rw [if_neg (fun habs => hqp (rev_inj (by
        rw [habs]
        simp)))]
      have hflag := noFlags_at q.reverse t nq hnf hnqF
      simp [dataAtF, hnqF, hflag, hqp]
  have hmem : k :: rest ∈ preR [] t := by
    rw [preR_mem t []]
    exact ⟨k :: rest, by simp, by simp, hval⟩
  have hfilter : ((iterateAll (deleteAt t (k :: rest)) []).1.filter
      (fun p => match nodeAtR (deleteAt t (k :: rest)) p with
        | some n => n.data.deleteFlag
        | none => false)) = [k :: rest] := by
    rw [hrun]
    exact filter_eq_singleton (preR [] t) (k :: rest) _ (preR_nodup t) hmem hpred
  have hnode' : nodeAtR (deleteAt t (k :: rest)) (k :: rest) =
      some (mapData setFlagD ck) := by
    rw [ht']
    show nodeAt _ (k :: rest).reverse = _
    rw [List.reverse_cons]
    exact nodeAt_updateAt_self (rest.reverse ++ [k]) t ck (mapData setFlagD) hnp
  have hcn : (mapData setFlagD ck).data.childnumber = (k : Int) := by
    have h1 : ck.data.childnumber = (k : Int) := wf_at rest.reverse t hwf k ck hnp
    cases ck with
    | mk d cs =>
      simp only [mapData, setFlagD, Bookmark.data] at h1 ⊢
      exact h1
  have hflush : flush (deleteAt t (k :: rest)) =
      updateAt t rest.reverse (dropSlot k) := by
    rw [flush]
    rw [hfilter]
    simp only [List.foldl]
    simp only [obliterate, hnode', hcn]
    rw [updateAtR, ht', updateAt_append rest.reverse [k] t (mapData setFlagD),
      updateAt_updateAt]
    exact updateAt_congr_at rest.reverse t par _ _ hparF
      (flag_then_obliterate par ck k (by simpa [Bookmark.children] using hckk))
  refine ⟨by rw [hflush]; rfl, ?_, ?_⟩
  · rw [hflush]
    have hlenu := len_updateAt rest.reverse t par (dropSlot k) hparF
    have hlenAt : lenAtR t (k :: rest) = ck.len := by
      rw [lenAtR, hck2]
    rw [hlenAt]
    cases par with
    | mk dp pcs =>
      simp only [Bookmark.children] at hckk
      have hklen : k < pcs.length := (List.getElem?_eq_some.mp hckk).1
      have hgetk : pcs[k] = ck := (List.getElem?_eq_some.mp hckk).2
      have hdecomp : Bookmark.lenList pcs =
          Bookmark.lenList (pcs.take k) + ck.len + Bookmark.lenList (pcs.drop (k + 1)) := by
        conv_lhs => rw [← List.take_append_drop k pcs]
        rw [lenList_append, List.drop_eq_getElem_cons hklen, hgetk]
        simp only [Bookmark.lenList]
        omega
      have hdrop : (dropSlot k (Bookmark.mk dp pcs)).len =
          pcs.length - 1 + (Bookmark.lenList (pcs.take k) +
            Bookmark.lenList (pcs.drop (k + 1))) := by
        simp only [dropSlot, Bookmark.children, Bookmark.data, Bookmark.len,
          List.length_append, List.length_take, List.length_map, List.length_drop]
        rw [lenList_append, lenList_map_cnDec]
        omega
      have hparlen : (Bookmark.mk dp pcs).len = pcs.length + Bookmark.lenList pcs := rfl
      rw [hdrop, hparlen] at hlenu
      omega
  · intro par0 hpar0
    rw [hpar] at hpar0
    have hpp : par0 = par := by
      injection hpar0 with h
      exact h.symm
    rw [hpp, hflush]
    have hself := nodeAt_updateAt_self rest.reverse t par (dropSlot k) hparF
    rw [show nodeAtR (updateAt t rest.reverse (dropSlot k)) rest =
      nodeAt (updateAt t rest.reverse (dropSlot k)) rest.reverse from rfl, hself]
    simp [dropSlot, Bookmark.children]

/-- Witness for `C5_delete_flush`: deleting the root's second child of `tW`
(one descendant of its own) and flushing drops slot 1 and shrinks `len`
from 3 to 1. -/
theorem C5_delete_flush_witness :
    flush (deleteAt tW (1 :: [])) = updateAtR tW [] (dropSlot 1) ∧
    (flush (deleteAt tW (1 :: []))).len + 1 + lenAtR tW (1 :: []) = tW.len ∧
    (∀ par, nodeAtR tW [] = some par →
      (nodeAtR (flush (deleteAt tW (1 :: []))) []).map Bookmark.children =
        some (par.children.take 1 ++ (par.children.drop (1 + 1)).map cnDec)) :=
  C5_delete_flush tW 1 [] (by decide) (by decide) (by decide)

/-- Witness for `C6_amended` at concrete inputs: the destination scenario,
a rejected color, a rejected action, a rejected boolean and the page
replacement. -/
theorem C6_amended_witness :
    setAttr d1C6 AttrName.destination (PyVal.vstr "BadDest") =
      (d1C6, [warnDest1, warnDest2, warnDest3]) ∧
    setAttr ({} : NodeData) AttrName.color (PyVal.vstr "red") =
      ({}, [warnColor1, warnColor2, warnColor3]) ∧
    setAttr ({} : NodeData) AttrName.action (PyVal.vstr "Jump") =
      ({}, [warnAction]) ∧
    setAttr ({} : NodeData) AttrName.open_ PyVal.vnone = ({}, [warnBool]) ∧
    setAttr ({ page := 5 } : NodeData) AttrName.page (PyVal.vstr "x") =
      ({ ({ page := 5 } : NodeData) with page := 0 }, [warnPage]) :=
  ⟨C6_amended.1 d1C6 "BadDest" (by decide),
   C6_amended.2.1 {} "red" (by decide),
   C6_amended.2.2.1 {} "Jump" (by decide),
   C6_amended.2.2.2.1 {} AttrName.open_ PyVal.vnone
     (Or.inr (Or.inr (Or.inl rfl))) (by decide),
   C6_amended.2.2.2.2.1 { page := 5 } (PyVal.vstr "x") (by decide)⟩
